import Mathlib

/-!
Verification of the ContentsOnly document scanner against its specification.

The definitions below are a shallow embedding of the Python sources
`src/scanner/calibration.py` and `src/scanner/image_processor.py`.
Machine floating-point arithmetic is modelled by exact rationals (`ℚ`) and,
where the code computes square roots, arc-cosines or polar angles, by real
numbers (`ℝ`).  Image-analysis primitives from OpenCV (thresholding,
contour extraction, warping) are not re-implemented: functions that merely
forward their results take those results as explicit parameters, and the
perspective warp is recorded as the argument tuple the code passes to the
library.  Presentation-only statements of the source (logging/`print`) are
dropped.
-/

namespace ContentsOnly

/-- An RGB (BGR) color triple, exact-rational model of a numpy float vector. -/
abbrev Vec3 : Type := ℚ × ℚ × ℚ

/-- Componentwise sum of two color triples (numpy vector addition). -/
def v3add (a b : Vec3) : Vec3 := (a.1 + b.1, a.2.1 + b.2.1, a.2.2 + b.2.2)

/-- Scalar multiple of a color triple (numpy scalar-vector product). -/
def v3smul (q : ℚ) (a : Vec3) : Vec3 := (q * a.1, q * a.2.1, q * a.2.2)

/-- `CalibrationConfig` from `calibration.py` (the fields consulted by the
merging, matching and storing logic; the auxiliary per-channel color
statistics `document_color_mean/std/min/max`, `bg_color_mean/std`,
`document_area_pixels`, `document_width/height` and
`calibration_image_size`, which none of the verified operations read,
are omitted).  Field names ending in `_ratio` carry a `V` suffix. -/
structure CalibrationConfig where
  cropPoints : Option (List (ℚ × ℚ)) := none
  targetSize : Option (ℚ × ℚ) := none
  avgColor : Option Vec3 := none
  avgBgColor : Option Vec3 := none
  colorThreshold : ℚ := 0
  edgeThreshold : ℚ := 0
  areaRange : ℚ × ℚ := (0, 0)
  aspectRatioRange : ℚ × ℚ := (0, 0)
  documentAreaRatioV : ℚ := 0
  documentAspectRatioV : ℚ := 0
  bgSamples : List Vec3 := []
  calibrated : Bool := false
  calibrationSamples : ℕ := 0
deriving DecidableEq

/-- `CalibrationCell` from `calibration.py`: a calibration profile plus the
format keys `aspect_ratio` / `size_category` (same field omissions as for
`CalibrationConfig`). -/
structure CalibrationCell where
  aspectRatioV : ℚ := 0
  sizeCategory : String := ""
  cropPoints : Option (List (ℚ × ℚ)) := none
  targetSize : Option (ℚ × ℚ) := none
  avgColor : Option Vec3 := none
  avgBgColor : Option Vec3 := none
  colorThreshold : ℚ := 0
  edgeThreshold : ℚ := 0
  areaRange : ℚ × ℚ := (0, 0)
  aspectRatioRange : ℚ × ℚ := (0, 0)
  documentAreaRatioV : ℚ := 0
  bgSamples : List Vec3 := []
  calibrated : Bool := false
  calibrationSamples : ℕ := 0
deriving DecidableEq

/-- `CalibrationCell.matches_format`: the aspect ratio agrees within 20 %
and the area fraction within 30 %, both relative to the larger of the two
values (floored at 0.1 resp. 0.01). -/
def matchesFormat (cell : CalibrationCell) (ar rr : ℚ) : Bool :=
  (|cell.aspectRatioV - ar| / max (max cell.aspectRatioV ar) (1/10) < 1/5) &&
  (|cell.documentAreaRatioV - rr| / max (max cell.documentAreaRatioV rr) (1/100) < 3/10)

/-- `CalibrationCell.get_match_score`: 0 for an uncalibrated cell, otherwise
`1/(1 + 2·aspect_dev + 1.5·area_dev)` scaled by `1 + 0.1·sample_count`. -/
def getMatchScore (cell : CalibrationCell) (ar rr : ℚ) : ℚ :=
  if cell.calibrated = false then 0
  else
    let aspectDiff := |cell.aspectRatioV - ar| / max (max cell.aspectRatioV ar) (1/10)
    let sizeDiff := |cell.documentAreaRatioV - rr| / max (max cell.documentAreaRatioV rr) (1/100)
    (1 / (1 + aspectDiff * 2 + sizeDiff * (3/2))) * (1 + (cell.calibrationSamples : ℚ) * (1/10))

/-- Loop body of `CalibrationManager._find_matching_cell`: scan the cells,
keeping the current best match (`best_score` starts at 0, updates are
strict). -/
def fmcAux (ar rr : ℚ) : List CalibrationCell → Option CalibrationCell → ℚ →
    Option CalibrationCell
  | [], best, _ => best
  | c :: rest, best, bestScore =>
    if matchesFormat c ar rr ∧ bestScore < getMatchScore c ar rr then
      fmcAux ar rr rest (some c) (getMatchScore c ar rr)
    else
      fmcAux ar rr rest best bestScore

/-- `CalibrationManager._find_matching_cell`. -/
def findMatchingCell (cells : List CalibrationCell) (ar rr : ℚ) :
    Option CalibrationCell :=
  fmcAux ar rr cells none 0

/-- `CalibrationManager._merge_calibration`: weighted running average of
colors and thresholds, widened tolerance bands, background-sample list
capped at the 50 most recent entries. -/
def mergeCalibration (cell : CalibrationCell) (config : CalibrationConfig) :
    CalibrationCell :=
  let n : ℕ := cell.calibrationSamples + 1
  let weightOld : ℚ := ((n : ℚ) - 1) / (n : ℚ)
  let weightNew : ℚ := 1 / (n : ℚ)
  let newAvgColor :=
    match config.avgColor with
    | none => cell.avgColor
    | some cv =>
      match cell.avgColor with
      | none => some cv
      | some ov => some (v3add (v3smul weightOld ov) (v3smul weightNew cv))
  let newAvgBgColor :=
    match config.avgBgColor with
    | none => cell.avgBgColor
    | some cv =>
      match cell.avgBgColor with
      | none => some cv
      | some ov => some (v3add (v3smul weightOld ov) (v3smul weightNew cv))
  let newAreaRange :=
    if 0 < config.areaRange.1 then
      (min cell.areaRange.1 config.areaRange.1 * (9/10),
       max cell.areaRange.2 config.areaRange.2 * (11/10))
    else cell.areaRange
  let newAspectRange :=
    if 0 < config.aspectRatioRange.1 then
      (max 1 (min cell.aspectRatioRange.1 config.aspectRatioRange.1 * (9/10)),
       min 10 (max cell.aspectRatioRange.2 config.aspectRatioRange.2 * (11/10)))
    else cell.aspectRatioRange
  let newBgSamples :=
    if config.bgSamples.isEmpty then cell.bgSamples
    else
      let combined := cell.bgSamples ++ config.bgSamples
      if 50 < combined.length then combined.drop (combined.length - 50) else combined
  { cell with
    calibrationSamples := n
    avgColor := newAvgColor
    avgBgColor := newAvgBgColor
    colorThreshold := cell.colorThreshold * weightOld + config.colorThreshold * weightNew
    edgeThreshold := cell.edgeThreshold * weightOld + config.edgeThreshold * weightNew
    areaRange := newAreaRange
    aspectRatioRange := newAspectRange
    bgSamples := newBgSamples }

/-- `CalibrationManager._create_new_cell`: a fresh cell carrying the format
keys and a copy of the config (`copy_from_config`). -/
def createNewCell (config : CalibrationConfig) (ar : ℚ) (sizeCat : String) :
    CalibrationCell :=
  { aspectRatioV := ar
    sizeCategory := sizeCat
    cropPoints := config.cropPoints
    targetSize := config.targetSize
    avgColor := config.avgColor
    avgBgColor := config.avgBgColor
    colorThreshold := config.colorThreshold
    edgeThreshold := config.edgeThreshold
    areaRange := config.areaRange
    aspectRatioRange := config.aspectRatioRange
    documentAreaRatioV := config.documentAreaRatioV
    bgSamples := config.bgSamples
    calibrated := config.calibrated
    calibrationSamples := config.calibrationSamples }

/-- Replace the first occurrence of `tgt` in the list (the in-place mutation
of the matched cell object; `_find_matching_cell` always returns the first
of equal-valued candidates, cf. the strict `score > best_score` update). -/
def replaceFirst : List CalibrationCell → CalibrationCell → CalibrationCell →
    List CalibrationCell
  | [], _, _ => []
  | c :: rest, tgt, repl =>
    if c = tgt then repl :: rest else c :: replaceFirst rest tgt repl

/-- Python's stable `list.sort(key=lambda c: c.calibration_samples)`. -/
def sortBySamples (cells : List CalibrationCell) : List CalibrationCell :=
  List.insertionSort (fun a b => a.calibrationSamples ≤ b.calibrationSamples) cells

/-- Cell-store update of `CalibrationManager.save_calibration` (the part
after the image has been analysed into `config` and the format keys
`aspect_ratio` / `size_category` have been determined): merge into the
matching cell, else create a new cell, evicting the fewest-sampled cell
when at capacity.  The sorted order produced by the eviction persists, as
the source sorts the stored list in place before `pop(0)`. -/
def saveCalibration (cells : List CalibrationCell) (maxCells : ℕ)
    (config : CalibrationConfig) (ar : ℚ) (sizeCat : String) :
    List CalibrationCell :=
  let rr := config.documentAreaRatioV
  match findMatchingCell cells ar rr with
  | some best => replaceFirst cells best (mergeCalibration best config)
  | none =>
    let kept :=
      if maxCells ≤ cells.length then (sortBySamples cells).tail else cells
    kept ++ [createNewCell config ar sizeCat]

/-! ### Geometry: `order_points` (image_processor.py, lines 919-982) -/

/-- Coordinate sum of a point (`pts.sum(axis=1)`). -/
def sumKey (p : ℚ × ℚ) : ℚ := p.1 + p.2

/-- Coordinate difference `y - x` of a point (`np.diff(pts, axis=1)`). -/
def diffKey (p : ℚ × ℚ) : ℚ := p.2 - p.1

/-- Value at the first index attaining the minimal key (`np.argmin`). -/
def selectMin {α β : Type} [LinearOrder β] (k : α → β) : List α → Option α
  | [] => none
  | a :: rest =>
    match selectMin k rest with
    | none => some a
    | some b => if k a ≤ k b then some a else some b

/-- Value at the first index attaining the maximal key (`np.argmax`). -/
def selectMax {α β : Type} [LinearOrder β] (k : α → β) : List α → Option α
  | [] => none
  | a :: rest =>
    match selectMax k rest with
    | none => some a
    | some b => if k b ≤ k a then some a else some b

/-- The sum/difference ordering of `order_points`:
`[TL, TR, BR, BL] = [argmin sum, argmin diff, argmax sum, argmax diff]`. -/
def naiveRect (pts : List (ℚ × ℚ)) : List (ℚ × ℚ) :=
  [(selectMin sumKey pts).getD (0, 0), (selectMin diffKey pts).getD (0, 0),
   (selectMax sumKey pts).getD (0, 0), (selectMax diffKey pts).getD (0, 0)]

/-- Dot product `(p1 - p2) · (p3 - p2)` used by `angle_between_points`. -/
def dotQ (p1 p2 p3 : ℚ × ℚ) : ℚ :=
  (p1.1 - p2.1) * (p3.1 - p2.1) + (p1.2 - p2.2) * (p3.2 - p2.2)

/-- Squared Euclidean distance between two points. -/
def sqDist (p q : ℚ × ℚ) : ℚ := (p.1 - q.1) ^ 2 + (p.2 - q.2) ^ 2

/-- `cos_angle` of `angle_between_points`: the dot product over the product
of the vector norms plus the `1e-6` guard. -/
noncomputable def cosAngle (p1 p2 p3 : ℚ × ℚ) : ℝ :=
  (dotQ p1 p2 p3 : ℝ) /
    (Real.sqrt (sqDist p1 p2) * Real.sqrt (sqDist p3 p2) + 1 / 1000000)

/-- `angle_between_points`: the angle at `p2`, in degrees, after clipping
the cosine to `[-1, 1]`. -/
noncomputable def angleDeg (p1 p2 p3 : ℚ × ℚ) : ℝ :=
  Real.arccos (min (max (cosAngle p1 p2 p3) (-1)) 1) * 180 / Real.pi

/-- The four corner angles of a (TL, TR, BR, BL) rectangle candidate, in the
order computed by the `for i in range(4)` loop of `order_points`. -/
noncomputable def rectAngles (r : List (ℚ × ℚ)) : List ℝ :=
  [angleDeg (r.getD 0 (0, 0)) (r.getD 1 (0, 0)) (r.getD 2 (0, 0)),
   angleDeg (r.getD 1 (0, 0)) (r.getD 2 (0, 0)) (r.getD 3 (0, 0)),
   angleDeg (r.getD 2 (0, 0)) (r.getD 3 (0, 0)) (r.getD 0 (0, 0)),
   angleDeg (r.getD 3 (0, 0)) (r.getD 0 (0, 0)) (r.getD 1 (0, 0))]

/-- `avg_angle = np.mean(angles)` of `order_points`. -/
noncomputable def avgAngleDeg (r : List (ℚ × ℚ)) : ℝ := (rectAngles r).sum / 4

/-- Centroid `pts.mean(axis=0)` of the four input points. -/
def centroid (pts : List (ℚ × ℚ)) : ℚ × ℚ :=
  ((pts.map Prod.fst).sum / 4, (pts.map Prod.snd).sum / 4)

/-- Polar angle of `p` around center `c` (`np.arctan2(dy, dx)`, range
`(-π, π]`, with `arctan2 0 0 = 0 = Complex.arg 0`). -/
noncomputable def polarKey (c p : ℚ × ℚ) : ℝ :=
  Complex.arg ⟨((p.1 - c.1 : ℚ) : ℝ), ((p.2 - c.2 : ℚ) : ℝ)⟩

/-- The points sorted by ascending polar angle around their centroid
(Python's `sort` is stable; insertion sort with a reflexive `≤` key
comparison is the same stable sort). -/
noncomputable def polarSorted (pts : List (ℚ × ℚ)) : List (ℚ × ℚ) :=
  List.insertionSort (fun p q => polarKey (centroid pts) p ≤ polarKey (centroid pts) q) pts

/-- First index attaining the minimal key (`np.argmin`, index form). -/
def firstMinIdx {α β : Type} [LinearOrder β] (k : α → β) (l : List α) : ℕ :=
  match selectMin k l with
  | none => 0
  | some m => l.findIdx (fun a => decide (k a = k m))

/-- The alternative ordering of `order_points`: sort by polar angle around
the centroid, then `np.roll` so that the point of minimal coordinate sum
(top-left) comes first. -/
noncomputable def polarResort (pts : List (ℚ × ℚ)) : List (ℚ × ℚ) :=
  (polarSorted pts).rotate (firstMinIdx sumKey (polarSorted pts))

/-- Condition under which `order_points` abandons the sum/difference
ordering: the mean of the four corner angles differs from 90° by more
than 30°. -/
def usesPolar (pts : List (ℚ × ℚ)) : Prop :=
  30 < |avgAngleDeg (naiveRect pts) - 90|

open Classical in
/-- `CalibratedImageProcessor.order_points`. -/
noncomputable def orderPoints (pts : List (ℚ × ℚ)) : List (ℚ × ℚ) :=
  if usesPolar pts then polarResort pts else naiveRect pts

/-- Modelled from the spec's words (§3/§8, for comparison with the code):

the mean deviation of the four interior angles from 90 degrees, i.e. the
average of the four absolute deviations `|angle - 90|`. -/
noncomputable def specMeanAngleDeviation (pts : List (ℚ × ℚ)) : ℝ :=
  ((rectAngles (naiveRect pts)).map (fun a => |a - 90|)).sum / 4

/-! ### Perspective rectifier: `four_point_transform` (lines 860-917) -/

/-- `int(np.sqrt(q))` for a nonnegative rational `q`: since
`⌊√q⌋ = ⌊√⌊q⌋⌋`, truncating the real square root equals the natural
square root of the floor. -/
def isqrtQ (q : ℚ) : ℕ := Nat.sqrt ⌊q⌋.toNat

/-- Interpolation flag of the `cv2.warpPerspective` call
(`cv2.INTER_LINEAR`). -/
inductive InterpMode where
  | bilinear
deriving DecidableEq

/-- Result of `four_point_transform`: either the unchanged input image, or
the argument tuple of the `cv2.warpPerspective` call the source makes —
source quad, destination quad, output size, interpolation mode and the
constant border color (the library call itself is outside the repository
and left abstract). -/
inductive WarpResult (α : Type) where
  | unchanged (image : α)
  | warped (src : List (ℚ × ℚ)) (dst : List (ℚ × ℚ)) (size : ℕ × ℕ)
      (interp : InterpMode) (borderValue : ℕ × ℕ × ℕ) (image : α)
deriving DecidableEq

/-- `CalibratedImageProcessor.four_point_transform`.  The
`calibration_config.target_size` block of the source only prints a warning
and never alters the result, hence the unused `_targetSize` argument. -/
noncomputable def fourPointTransform {α : Type} (image : α)
    (pts : List (ℚ × ℚ)) (_targetSize : Option (ℚ × ℚ)) : WarpResult α :=
  let rect := orderPoints pts
  let tl := rect.getD 0 (0, 0)
  let tr := rect.getD 1 (0, 0)
  let br := rect.getD 2 (0, 0)
  let bl := rect.getD 3 (0, 0)
  let maxWidth := max (isqrtQ (sqDist br bl)) (isqrtQ (sqDist tr tl))
  let maxHeight := max (isqrtQ (sqDist tr br)) (isqrtQ (sqDist tl bl))
  if maxWidth < 10 ∨ maxHeight < 10 then .unchanged image
  else
    .warped rect
      [(0, 0), ((maxWidth : ℚ) - 1, 0), ((maxWidth : ℚ) - 1, (maxHeight : ℚ) - 1),
       (0, (maxHeight : ℚ) - 1)]
      (maxWidth, maxHeight) .bilinear (255, 255, 255) image

/-! ### Contour validation (lines 246-277) and cropping (lines 802-858) -/

/-- Whether some pair of the four (first) points is closer than the given
squared distance bound (`dist < min_distance`, compared on squares). -/
def anyPairCloser (pts : List (ℚ × ℚ)) (minD2 : ℚ) : Bool :=
  let p0 := pts.getD 0 (0, 0)
  let p1 := pts.getD 1 (0, 0)
  let p2 := pts.getD 2 (0, 0)
  let p3 := pts.getD 3 (0, 0)
  (sqDist p0 p1 < minD2) || (sqDist p0 p2 < minD2) || (sqDist p0 p3 < minD2) ||
  (sqDist p1 p2 < minD2) || (sqDist p1 p3 < minD2) || (sqDist p2 p3 < minD2)

/-- `cv2.contourArea`: absolute value of the shoelace (Green's formula)
sum, halved. -/
def contourAreaQ (pts : List (ℚ × ℚ)) : ℚ :=
  |((pts.zip (pts.rotate 1)).map (fun pq => pq.1.1 * pq.2.2 - pq.2.1 * pq.1.2)).sum| / 2

/-- `CalibratedImageProcessor._validate_contour`: a non-4-point contour is
rejected (`len < 4` directly, `len > 4` via the `reshape(4, 2)` error
caught by the bare `except`); otherwise reject on a too-close vertex pair,
an out-of-bounds vertex, or area below 1 % of the image. -/
def validateContour (pts : List (ℚ × ℚ)) (h w : ℕ) : Bool :=
  if pts.length ≠ 4 then false
  else if anyPairCloser pts (((min h w : ℚ) * (1/20)) ^ 2) then false
  else if pts.any (fun p => p.1 < 0 || (w : ℚ) ≤ p.1 || p.2 < 0 || (h : ℚ) ≤ p.2) then false
  else if contourAreaQ pts < ((w : ℚ) * (h : ℚ)) * (1/100) then false
  else true

/-- Python `int()` truncation toward zero. -/
def pyInt (q : ℚ) : ℤ := if 0 ≤ q then ⌊q⌋ else -⌊-q⌋

/-- The fallback of `crop_with_calibration`: fractional calibration
`crop_points` rescaled to the image resolution by `int(x*w), int(y*h)` and
clipped (`np.clip`) to `[0, w-1] × [0, h-1]`. -/
def scaleAndClipPoints (cps : List (ℚ × ℚ)) (w h : ℕ) : List (ℚ × ℚ) :=
  cps.map (fun p =>
    (min ((w : ℚ) - 1) (max 0 ((pyInt (p.1 * w) : ℚ))),
     min ((h : ℚ) - 1) (max 0 ((pyInt (p.2 * h) : ℚ)))))

/-- Last fallback of `crop_with_calibration` when no stored 4-point crop
exists: try `_find_any_large_rectangle` (whose result on the given image is
the `anyLargeResult` parameter), else return the unmodified image. -/
noncomputable def cropLastFallback {α : Type} (image : α)
    (anyLargeResult : Option (List (ℚ × ℚ))) (targetSize : Option (ℚ × ℚ)) :
    Option (WarpResult α) :=
  match anyLargeResult with
  | some contour => some (fourPointTransform image contour targetSize)
  | none => some (WarpResult.unchanged image)

/-- `CalibratedImageProcessor.crop_with_calibration` on an image of shape
`(h, w)`.  The image-analysis detectors are abstracted by their results on
this image: `autoResult` is what `find_document_auto` returns and
`anyLargeResult` what `_find_any_large_rectangle` returns.  `none` models
Python's `None`: when a detected contour fails the vertex-closeness
re-check the source sets `contour = None` intending the fallback, but the
fallback lives in the `else` of the outer `if`, so control falls off the
end of the function and Python returns `None`. -/
noncomputable def cropWithCalibration {α : Type} (image : α) (h w : ℕ)
    (autoResult anyLargeResult : Option (List (ℚ × ℚ)))
    (cropPoints : Option (List (ℚ × ℚ))) (targetSize : Option (ℚ × ℚ)) :
    Option (WarpResult α) :=
  match autoResult with
  | some contour =>
    if anyPairCloser contour (((min h w : ℚ) * (1/20)) ^ 2) then none
    else some (fourPointTransform image contour targetSize)
  | none =>
    match cropPoints with
    | some cps =>
      if cps.length = 4 then
        some (fourPointTransform image (scaleAndClipPoints cps w h) targetSize)
      else cropLastFallback image anyLargeResult targetSize
    | none => cropLastFallback image anyLargeResult targetSize

/-! ### Concrete inputs used by the counterexamples and witnesses -/

/-- A calibrated cell (aspect 3/2, area fraction 2/5). -/
def c1cell : CalibrationCell :=
  { aspectRatioV := 3/2
    sizeCategory := "medium"
    avgColor := some (100, 100, 100)
    avgBgColor := some (200, 200, 200)
    colorThreshold := 30
    edgeThreshold := 50
    areaRange := (1/5, 3/5)
    aspectRatioRange := (3/2, 2)
    documentAreaRatioV := 2/5
    bgSamples := []
    calibrated := true
    calibrationSamples := 1 }

/-- A profile numerically identical to `c1cell` in every merged field. -/
def c1config : CalibrationConfig :=
  { avgColor := some (100, 100, 100)
    avgBgColor := some (200, 200, 200)
    colorThreshold := 30
    edgeThreshold := 50
    areaRange := (1/5, 3/5)
    aspectRatioRange := (3/2, 2)
    documentAreaRatioV := 2/5
    documentAspectRatioV := 3/2
    bgSamples := []
    calibrated := true
    calibrationSamples := 1 }

/-- Cell matching the observation (2, 1/2) exactly, 2 samples: score 6/5. -/
def c5cellA : CalibrationCell :=
  { aspectRatioV := 2
    documentAreaRatioV := 1/2
    calibrated := true
    calibrationSamples := 2 }

/-- Cell with aspect 11/6 (deviation 1/12) and 4 samples: score
`(6/7)·(7/5) = 6/5`, tying `c5cellA`. -/
def c5cellB : CalibrationCell :=
  { aspectRatioV := 11/6
    documentAreaRatioV := 1/2
    calibrated := true
    calibrationSamples := 4 }

/-- A one-sample calibration profile with area fraction 1/2. -/
def c4config : CalibrationConfig :=
  { documentAreaRatioV := 1/2
    calibrated := true
    calibrationSamples := 1 }

/-- The store after committing five samples of pairwise non-matching
aspect ratios into an empty store with `max_cells = 5`. -/
def fiveCells : List CalibrationCell :=
  [(1 : ℚ), 7/5, 2, 3, 5].foldl
    (fun cells a => saveCalibration cells 5 c4config a "large") []

/-- The store after a sixth commit of yet another non-matching aspect. -/
def sixCommitResult : List CalibrationCell :=
  saveCalibration fiveCells 5 c4config 8 "large"

/-- Cell holding 49 background samples. -/
def c10cell : CalibrationCell :=
  { bgSamples := List.replicate 49 ((0 : ℚ), (0 : ℚ), (0 : ℚ)) }

/-- Profile contributing 3 further background samples. -/
def c10config : CalibrationConfig :=
  { bgSamples := List.replicate 3 ((1 : ℚ), (1 : ℚ), (1 : ℚ)) }

/-- A parallelogram with corner angles ≈ 59°/121°: the sum/difference
ordering is already the correct cyclic order and the mean corner angle is
exactly 90°, yet every corner deviates from 90° by more than 30°. -/
def c8pts : List (ℚ × ℚ) := [(0, 0), (10, 0), (13, 5), (3, 5)]

/-- An axis-aligned 30 × 20 rectangle with pairwise distinct sum and
difference keys. -/
def rectPts : List (ℚ × ℚ) := [(0, 0), (30, 0), (30, 20), (0, 20)]

/-- A square contour comfortably inside a 100 × 100 image. -/
def c6pts : List (ℚ × ℚ) := [(10, 10), (90, 10), (90, 90), (10, 90)]

/-- An axis-aligned 12 × 11 rectangle with pairwise distinct sum and
difference keys. -/
def c8rect : List (ℚ × ℚ) := [(0, 0), (12, 0), (12, 11), (0, 11)]

/-! ## Theorems -/

/-- C1: the claim as stated is false.  `c1config` agrees with `c1cell` in
colors, thresholds, area range and aspect-ratio range, yet
`_merge_calibration` changes `area_range` from `(1/5, 3/5)` to
`(9/50, 33/50)` (and `aspect_ratio_range` from `(3/2, 2)` to
`(27/20, 11/5)`): the tolerance bands are widened by the fixed 0.9/1.1
factors even when both profiles agree. -/
theorem C1_counterexample :
    c1cell.avgColor = c1config.avgColor ∧
    c1cell.avgBgColor = c1config.avgBgColor ∧
    c1cell.colorThreshold = c1config.colorThreshold ∧
    c1cell.edgeThreshold = c1config.edgeThreshold ∧
    c1cell.areaRange = c1config.areaRange ∧
    c1cell.aspectRatioRange = c1config.aspectRatioRange ∧
    (mergeCalibration c1cell c1config).areaRange ≠ c1cell.areaRange ∧
    (mergeCalibration c1cell c1config).aspectRatioRange ≠ c1cell.aspectRatioRange := by
  with_unfolding_all decide

/-- C1 (amended): merging a numerically identical profile into a cell
leaves the color means and both thresholds unchanged and increments
`calibration_samples` by exactly 1; the area tolerance band however
becomes `(0.9·lo, 1.1·hi)` and the aspect band
`(max 1 (0.9·lo), min 10 (1.1·hi))` whenever its lower bound is positive
(both bands stay unchanged when the lower bound is ≤ 0). -/
theorem C1_amended_thm (cell : CalibrationCell) (config : CalibrationConfig)
    (hc : cell.avgColor = config.avgColor)
    (hb : cell.avgBgColor = config.avgBgColor)
    (hct : cell.colorThreshold = config.colorThreshold)
    (het : cell.edgeThreshold = config.edgeThreshold)
    (har : cell.areaRange = config.areaRange)
    (hpr : cell.aspectRatioRange = config.aspectRatioRange) :
    (mergeCalibration cell config).avgColor = cell.avgColor ∧
    (mergeCalibration cell config).avgBgColor = cell.avgBgColor ∧
    (mergeCalibration cell config).colorThreshold = cell.colorThreshold ∧
    (mergeCalibration cell config).edgeThreshold = cell.edgeThreshold ∧
    (mergeCalibration cell config).calibrationSamples = cell.calibrationSamples + 1 ∧
    (mergeCalibration cell config).areaRange =
      (if 0 < cell.areaRange.1 then
        (cell.areaRange.1 * (9/10), cell.areaRange.2 * (11/10))
       else cell.areaRange) ∧
    (mergeCalibration cell config).aspectRatioRange =
      (if 0 < cell.aspectRatioRange.1 then
        (max 1 (cell.aspectRatioRange.1 * (9/10)), min 10 (cell.aspectRatioRange.2 * (11/10)))
       else cell.aspectRatioRange) := by
  have hn : ((cell.calibrationSamples + 1 : ℕ) : ℚ) ≠ 0 := by positivity
  have hw : (((cell.calibrationSamples + 1 : ℕ) : ℚ) - 1) / ((cell.calibrationSamples + 1 : ℕ) : ℚ)
      + 1 / ((cell.calibrationSamples + 1 : ℕ) : ℚ) = 1 := by
    field_simp
  have hmul : ∀ x : ℚ,
      x * ((((cell.calibrationSamples + 1 : ℕ) : ℚ) - 1) / ((cell.calibrationSamples + 1 : ℕ) : ℚ))
      + x * (1 / ((cell.calibrationSamples + 1 : ℕ) : ℚ)) = x := by
    intro x
    calc x * ((((cell.calibrationSamples + 1 : ℕ) : ℚ) - 1) / ((cell.calibrationSamples + 1 : ℕ) : ℚ))
          + x * (1 / ((cell.calibrationSamples + 1 : ℕ) : ℚ))
        = x * ((((cell.calibrationSamples + 1 : ℕ) : ℚ) - 1) / ((cell.calibrationSamples + 1 : ℕ) : ℚ)
            + 1 / ((cell.calibrationSamples + 1 : ℕ) : ℚ)) := by ring
      _ = x := by rw [hw]; ring
  refine ⟨?_, ?_, ?_, ?_, ?_, ?_, ?_⟩
  · simp only [mergeCalibration, ← hc]
    cases cell.avgColor with
    | none => rfl
    | some v =>
      simp only [v3add, v3smul, Option.some.injEq]
      refine Prod.ext ?_ (Prod.ext ?_ ?_)
      · simpa [mul_comm] using hmul v.1
      · simpa [mul_comm] using hmul v.2.1
      · simpa [mul_comm] using hmul v.2.2
  · simp only [mergeCalibration, ← hb]
    cases cell.avgBgColor with
    | none => rfl
    | some v =>
      simp only [v3add, v3smul, Option.some.injEq]
      refine Prod.ext ?_ (Prod.ext ?_ ?_)
      · simpa [mul_comm] using hmul v.1
      · simpa [mul_comm] using hmul v.2.1
      · simpa [mul_comm] using hmul v.2.2
  · simp only [mergeCalibration, ← hct]
    exact hmul cell.colorThreshold
  · simp only [mergeCalibration, ← het]
    exact hmul cell.edgeThreshold
  · simp only [mergeCalibration]
  · simp only [mergeCalibration, ← har, min_self, max_self]
  · simp only [mergeCalibration, ← hpr, min_self, max_self]

/-- C1 (witness): the amended theorem applied to `c1cell` / `c1config`. -/
theorem C1_witness :
    c1cell.avgColor = c1config.avgColor ∧
    ((mergeCalibration c1cell c1config).avgColor = c1cell.avgColor ∧
     (mergeCalibration c1cell c1config).avgBgColor = c1cell.avgBgColor ∧
     (mergeCalibration c1cell c1config).colorThreshold = c1cell.colorThreshold ∧
     (mergeCalibration c1cell c1config).edgeThreshold = c1cell.edgeThreshold ∧
     (mergeCalibration c1cell c1config).calibrationSamples = c1cell.calibrationSamples + 1 ∧
     (mergeCalibration c1cell c1config).areaRange =
       (if 0 < c1cell.areaRange.1 then
         (c1cell.areaRange.1 * (9/10), c1cell.areaRange.2 * (11/10))
        else c1cell.areaRange) ∧
     (mergeCalibration c1cell c1config).aspectRatioRange =
       (if 0 < c1cell.aspectRatioRange.1 then
         (max 1 (c1cell.aspectRatioRange.1 * (9/10)), min 10 (c1cell.aspectRatioRange.2 * (11/10)))
        else c1cell.aspectRatioRange)) :=
  ⟨by with_unfolding_all rfl,
   C1_amended_thm c1cell c1config (by with_unfolding_all rfl) (by with_unfolding_all rfl)
     (by with_unfolding_all rfl) (by with_unfolding_all rfl) (by with_unfolding_all rfl)
     (by with_unfolding_all rfl)⟩

/-- C10: merging preserves the bound of 50 background samples; whenever
the combined sample list exceeds 50 entries, exactly the most recent 50
are kept. -/
theorem C10_thm (cell : CalibrationCell) (config : CalibrationConfig)
    (hlen : cell.bgSamples.length ≤ 50) :
    (mergeCalibration cell config).bgSamples.length ≤ 50 ∧
    (50 < (cell.bgSamples ++ config.bgSamples).length →
      (mergeCalibration cell config).bgSamples =
        (cell.bgSamples ++ config.bgSamples).drop
          ((cell.bgSamples ++ config.bgSamples).length - 50)) := by
  have hsplit : (mergeCalibration cell config).bgSamples =
      if config.bgSamples.isEmpty then cell.bgSamples
      else if 50 < (cell.bgSamples ++ config.bgSamples).length then
        (cell.bgSamples ++ config.bgSamples).drop
          ((cell.bgSamples ++ config.bgSamples).length - 50)
      else cell.bgSamples ++ config.bgSamples := rfl
  rw [hsplit]
  by_cases hemp : config.bgSamples.isEmpty
  · rw [if_pos hemp]
    have hnil : config.bgSamples = [] := List.isEmpty_iff.mp hemp
    refine ⟨hlen, fun hgt => ?_⟩
    rw [hnil, List.append_nil] at hgt
    exact absurd hgt (by omega)
  · rw [if_neg hemp]
    by_cases hgt : 50 < (cell.bgSamples ++ config.bgSamples).length
    · rw [if_pos hgt]
      refine ⟨?_, fun _ => rfl⟩
      rw [List.length_drop]
      omega
    · rw [if_neg hgt]
      exact ⟨by omega, fun h => absurd h hgt⟩

/-- C10 (witness): merging 3 samples into a cell holding 49 keeps exactly
the most recent 50. -/
theorem C10_witness :
    c10cell.bgSamples.length ≤ 50 ∧
    ((mergeCalibration c10cell c10config).bgSamples.length ≤ 50 ∧
     (50 < (c10cell.bgSamples ++ c10config.bgSamples).length →
       (mergeCalibration c10cell c10config).bgSamples =
         (c10cell.bgSamples ++ c10config.bgSamples).drop
           ((c10cell.bgSamples ++ c10config.bgSamples).length - 50))) :=
  ⟨by with_unfolding_all decide, C10_thm c10cell c10config (by with_unfolding_all decide)⟩

/-- Characterization of the `_find_matching_cell` scan returning nothing:
the initial best survives only if no later cell strictly beats the running
score. -/
theorem fmcAux_eq_none (ar rr : ℚ) :
    ∀ (l : List CalibrationCell) (best : Option CalibrationCell) (bs : ℚ),
      fmcAux ar rr l best bs = none ↔
        best = none ∧ ∀ c ∈ l, matchesFormat c ar rr = true → getMatchScore c ar rr ≤ bs := by
  intro l
  induction l with
  | nil => intro best bs; simp [fmcAux]
  | cons a rest ih =>
    intro best bs
    by_cases hcond : matchesFormat a ar rr = true ∧ bs < getMatchScore a ar rr
    · rw [fmcAux, if_pos hcond, ih]
      constructor
      · rintro ⟨h, -⟩
        exact absurd h (by simp)
      · rintro ⟨-, hall⟩
        exact absurd (hall a (by simp) hcond.1) (by exact not_le.mpr hcond.2)
    · rw [fmcAux, if_neg hcond, ih]
      constructor
      · rintro ⟨hb, hall⟩
        refine ⟨hb, fun c hc hm => ?_⟩
        rcases List.mem_cons.mp hc with rfl | hc
        · rcases not_and_or.mp hcond with h | h
          · exact absurd hm h
          · exact le_of_not_lt h
        · exact hall c hc hm
      · rintro ⟨hb, hall⟩
        exact ⟨hb, fun c hc hm => hall c (List.mem_cons_of_mem a hc) hm⟩

/-- Characterization of the `_find_matching_cell` scan returning a cell:
either the initial best survives unbeaten, or the result sits at a
position of the list, matches, strictly beats the incoming score and every
earlier matching cell, and is not beaten by any later matching cell. -/
theorem fmcAux_eq_some (ar rr : ℚ) :
    ∀ (l : List CalibrationCell) (best : Option CalibrationCell) (bs : ℚ)
      (c : CalibrationCell), fmcAux ar rr l best bs = some c →
      (best = some c ∧
        ∀ x ∈ l, matchesFormat x ar rr = true → getMatchScore x ar rr ≤ bs) ∨
      (∃ pre post, l = pre ++ c :: post ∧ matchesFormat c ar rr = true ∧
        bs < getMatchScore c ar rr ∧
        (∀ x ∈ pre, matchesFormat x ar rr = true →
          getMatchScore x ar rr < getMatchScore c ar rr) ∧
        (∀ x ∈ post, matchesFormat x ar rr = true →
          getMatchScore x ar rr ≤ getMatchScore c ar rr)) := by
  intro l
  induction l with
  | nil =>
    intro best bs c h
    rw [fmcAux] at h
    exact Or.inl ⟨h, by simp⟩
  | cons a rest ih =>
    intro best bs c h
    by_cases hcond : matchesFormat a ar rr = true ∧ bs < getMatchScore a ar rr
    · rw [fmcAux, if_pos hcond] at h
      rcases ih (some a) (getMatchScore a ar rr) c h with ⟨ha, hall⟩ | hex
      · have hac : a = c := Option.some_injective _ ha
        subst hac
        refine Or.inr ⟨[], rest, by simp, hcond.1, hcond.2, by simp, fun x hx hm => hall x hx hm⟩
      · rcases hex with ⟨pre, post, heq, hm, hlt, hpre, hpost⟩
        refine Or.inr ⟨a :: pre, post, by rw [heq]; rfl, hm, lt_trans hcond.2 hlt, ?_, hpost⟩
        intro x hx hmx
        rcases List.mem_cons.mp hx with rfl | hx
        · exact hlt
        · exact hpre x hx hmx
    · rw [fmcAux, if_neg hcond] at h
      rcases ih best bs c h with ⟨hb, hall⟩ | hex
      · refine Or.inl ⟨hb, fun x hx hmx => ?_⟩
        rcases List.mem_cons.mp hx with rfl | hx
        · rcases not_and_or.mp hcond with hnm | hns
          · exact absurd hmx hnm
          · exact le_of_not_lt hns
        · exact hall x hx hmx
      · rcases hex with ⟨pre, post, heq, hm, hlt, hpre, hpost⟩
        refine Or.inr ⟨a :: pre, post, by rw [heq]; rfl, hm, hlt, ?_, hpost⟩
        intro x hx hmx
        rcases List.mem_cons.mp hx with rfl | hx
        · rcases not_and_or.mp hcond with hnm | hns
          · exact absurd hmx hnm
          · exact lt_of_le_of_lt (le_of_not_lt hns) hlt
        · exact hpre x hx hmx

/-- C5 (amended): `matches_format` holds exactly as stated;
`find_matching_cell` returns a cell iff it is the first cell attaining the
maximal positive match score among matching cells (score ties are broken
by position in the store, earlier cell wins — not by higher
`sample_count`); and every calibrated cell matches its own exact
(aspect_ratio, area_ratio) with score > 0. -/
theorem C5_amended_thm (cells : List CalibrationCell) (ar rr : ℚ) :
    (matchesFormat = fun (cell : CalibrationCell) (a r : ℚ) =>
      decide (|cell.aspectRatioV - a| / max (max cell.aspectRatioV a) (1/10) < 1/5) &&
      decide (|cell.documentAreaRatioV - r| / max (max cell.documentAreaRatioV r) (1/100) < 3/10)) ∧
    (findMatchingCell cells ar rr = none ↔
      ∀ c ∈ cells, matchesFormat c ar rr = true → getMatchScore c ar rr ≤ 0) ∧
    (∀ c, findMatchingCell cells ar rr = some c →
      ∃ pre post, cells = pre ++ c :: post ∧ matchesFormat c ar rr = true ∧
        0 < getMatchScore c ar rr ∧
        (∀ x ∈ pre, matchesFormat x ar rr = true →
          getMatchScore x ar rr < getMatchScore c ar rr) ∧
        (∀ x ∈ post, matchesFormat x ar rr = true →
          getMatchScore x ar rr ≤ getMatchScore c ar rr)) ∧
    (∀ cell : CalibrationCell, cell.calibrated = true →
      matchesFormat cell cell.aspectRatioV cell.documentAreaRatioV = true ∧
      0 < getMatchScore cell cell.aspectRatioV cell.documentAreaRatioV) := by
  refine ⟨rfl, ?_, ?_, ?_⟩
  · rw [findMatchingCell, fmcAux_eq_none]
    simp
  · intro c h
    rw [findMatchingCell] at h
    rcases fmcAux_eq_some ar rr cells none 0 c h with ⟨hb, -⟩ | hex
    · exact absurd hb (by simp)
    · exact hex
  · intro cell hcal
    constructor
    · unfold matchesFormat
      simp only [sub_self, abs_zero, zero_div, Bool.and_eq_true, decide_eq_true_eq]
      norm_num
    · unfold getMatchScore
      rw [hcal]
      simp only [sub_self, abs_zero, zero_div, zero_mul, add_zero, Bool.true_eq_false,
        if_false]
      positivity

/-- C5: the claim's tie-break is false.  `c5cellA` and `c5cellB` both match
the observation `(2, 1/2)` with the same score `6/5`, `c5cellB` has the
larger sample count, yet `_find_matching_cell` keeps the earlier cell
`c5cellA` (the update condition `score > best_score` is strict). -/
theorem C5_counterexample :
    findMatchingCell [c5cellA, c5cellB] 2 (1/2) = some c5cellA ∧
    matchesFormat c5cellA 2 (1/2) = true ∧
    matchesFormat c5cellB 2 (1/2) = true ∧
    getMatchScore c5cellB 2 (1/2) = getMatchScore c5cellA 2 (1/2) ∧
    c5cellA.calibrationSamples < c5cellB.calibrationSamples ∧
    c5cellA ≠ c5cellB := by
  with_unfolding_all decide

/-- C5 (witness): the amended theorem applied to the concrete store
`[c5cellA, c5cellB]` and the calibrated cell `c5cellA`. -/
theorem C5_witness :
    c5cellA.calibrated = true ∧
    (matchesFormat c5cellA c5cellA.aspectRatioV c5cellA.documentAreaRatioV = true ∧
     0 < getMatchScore c5cellA c5cellA.aspectRatioV c5cellA.documentAreaRatioV) :=
  ⟨by with_unfolding_all rfl,
   (C5_amended_thm [c5cellA, c5cellB] 2 (1/2)).2.2.2 c5cellA (by with_unfolding_all rfl)⟩

/-- Replacing the matched cell in place preserves the number of cells. -/
theorem replaceFirst_length (l : List CalibrationCell) (tgt repl : CalibrationCell) :
    (replaceFirst l tgt repl).length = l.length := by
  induction l with
  | nil => rfl
  | cons c rest ih =>
    rw [replaceFirst]
    by_cases h : c = tgt
    · rw [if_pos h]
      simp
    · rw [if_neg h]
      simp [ih]

/-- C4: a commit never grows the store beyond `max_cells`; when a commit
creates a new cell while the store is at capacity, the evicted cell is one
with the fewest `calibration_samples`; and five pairwise non-matching
commits fill a `max_cells = 5` store exactly while a sixth keeps it at 5. -/
theorem C4_thm :
    (∀ (cells : List CalibrationCell) (maxCells : ℕ) (config : CalibrationConfig)
        (ar : ℚ) (sc : String), 1 ≤ maxCells → cells.length ≤ maxCells →
        (saveCalibration cells maxCells config ar sc).length ≤ maxCells) ∧
    (∀ (cells : List CalibrationCell) (maxCells : ℕ) (config : CalibrationConfig)
        (ar : ℚ) (sc : String), 1 ≤ maxCells → maxCells ≤ cells.length →
        findMatchingCell cells ar config.documentAreaRatioV = none →
        ∃ evicted ∈ cells,
          (∀ c ∈ cells, evicted.calibrationSamples ≤ c.calibrationSamples) ∧
          (saveCalibration cells maxCells config ar sc).Perm
            (createNewCell config ar sc :: cells.erase evicted)) ∧
    fiveCells.length = 5 ∧ sixCommitResult.length = 5 := by
  haveI hTot : IsTotal CalibrationCell
      (fun a b => a.calibrationSamples ≤ b.calibrationSamples) :=
    ⟨fun a b => Nat.le_total _ _⟩
  haveI hTrans : IsTrans CalibrationCell
      (fun a b => a.calibrationSamples ≤ b.calibrationSamples) :=
    ⟨fun _ _ _ hab hbc => le_trans hab hbc⟩
  refine ⟨?_, ?_, ?_, ?_⟩
  · intro cells maxCells config ar sc hmax hlen
    rcases hfind : findMatchingCell cells ar config.documentAreaRatioV with - | best
    · simp only [saveCalibration, hfind]
      by_cases hcap : maxCells ≤ cells.length
      · rw [if_pos hcap]
        have hslen : (sortBySamples cells).length = cells.length :=
          (List.perm_insertionSort _ cells).length_eq
        rw [List.length_append, List.length_tail, hslen]
        simp only [List.length_singleton]
        omega
      · rw [if_neg hcap]
        rw [List.length_append]
        simp only [List.length_singleton]
        omega
    · simp only [saveCalibration, hfind]
      rw [replaceFirst_length]
      exact hlen
  · intro cells maxCells config ar sc hmax hcap hfind
    simp only [saveCalibration, hfind, if_pos hcap]
    have hperm : (sortBySamples cells).Perm cells := List.perm_insertionSort _ cells
    have hslen : (sortBySamples cells).length = cells.length := hperm.length_eq
    have hne : sortBySamples cells ≠ [] := by
      intro hnil
      rw [hnil] at hslen
      simp at hslen
      omega
    obtain ⟨e, tl, htl⟩ := List.exists_cons_of_ne_nil hne
    have hsorted : List.Sorted (fun a b => a.calibrationSamples ≤ b.calibrationSamples)
        (sortBySamples cells) := List.sorted_insertionSort _ cells
    rw [htl] at hsorted
    have hehd : ∀ b ∈ tl, e.calibrationSamples ≤ b.calibrationSamples :=
      (List.sorted_cons.mp hsorted).1
    refine ⟨e, ?_, ?_, ?_⟩
    · exact hperm.subset (htl ▸ List.mem_cons_self e tl)
    · intro c hc
      have hc' : c ∈ e :: tl := htl ▸ hperm.mem_iff.mpr hc
      rcases List.mem_cons.mp hc' with rfl | hc'
      · exact le_refl _
      · exact hehd c hc'
    · rw [htl]
      simp only [List.tail_cons]
      have h1 : (tl ++ [createNewCell config ar sc]).Perm
          (createNewCell config ar sc :: tl) := List.perm_append_singleton _ _
      have h2 : (cells.erase e).Perm tl := by
        have := (hperm.symm.erase e)
        rw [htl, List.erase_cons_head] at this
        exact this
      exact h1.trans (h2.symm.cons _)
  · with_unfolding_all rfl
  · with_unfolding_all rfl

/-- C4 (witness): both universal parts applied to the concretely computed
five-cell store and a sixth non-matching commit. -/
theorem C4_witness :
    (1 ≤ 5 ∧ fiveCells.length ≤ 5 ∧
      (saveCalibration fiveCells 5 c4config 8 "large").length ≤ 5) ∧
    (5 ≤ fiveCells.length ∧
      findMatchingCell fiveCells 8 c4config.documentAreaRatioV = none ∧
      ∃ evicted ∈ fiveCells,
        (∀ c ∈ fiveCells, evicted.calibrationSamples ≤ c.calibrationSamples) ∧
        (saveCalibration fiveCells 5 c4config 8 "large").Perm
          (createNewCell c4config 8 "large" :: fiveCells.erase evicted)) :=
  ⟨⟨by norm_num, by with_unfolding_all decide,
    C4_thm.1 fiveCells 5 c4config 8 "large" (by norm_num) (by with_unfolding_all decide)⟩,
   ⟨by with_unfolding_all decide, by with_unfolding_all rfl,
    C4_thm.2.1 fiveCells 5 c4config 8 "large" (by norm_num) (by with_unfolding_all decide)
      (by with_unfolding_all rfl)⟩⟩

/-- Comparing a Euclidean distance against a nonnegative bound is the same
as comparing the squared distance against the squared bound. -/
theorem sqrtQ_lt_iff (d2 m : ℚ) (hd : 0 ≤ d2) (hm : 0 ≤ m) :
    Real.sqrt ((d2 : ℚ) : ℝ) < ((m : ℚ) : ℝ) ↔ d2 < m ^ 2 := by
  rcases lt_or_eq_of_le hm with hpos | heq
  · rw [Real.sqrt_lt' (by exact_mod_cast hpos)]
    constructor
    · intro hlt
      exact_mod_cast hlt
    · intro hlt
      exact_mod_cast hlt
  · rw [← heq]
    have hL : ¬ Real.sqrt ((d2 : ℚ) : ℝ) < ((0 : ℚ) : ℝ) := by
      push_cast
      exact not_lt.mpr (Real.sqrt_nonneg _)
    have hR : ¬ d2 < (0 : ℚ) ^ 2 := by
      simpa using not_lt.mpr hd
    exact iff_of_false hL hR

/-- Squared distances are symmetric. -/
theorem sqDist_comm (p q : ℚ × ℚ) : sqDist p q = sqDist q p := by
  unfold sqDist
  ring

/-- C6: `_validate_contour` on a 4-point contour returns `false` exactly
when two vertices are closer than 5 % of `min(h, w)`, a vertex lies
outside the image bounds, or the contour area is below 1 % of the image
area — and (being a total function of its arguments) it never raises. -/
theorem C6_thm (pts : List (ℚ × ℚ)) (h w : ℕ) (h4 : pts.length = 4) :
    validateContour pts h w = false ↔
      ((∃ i j : Fin 4, i ≠ j ∧
        Real.sqrt ((((pts.getD i.val (0, 0)).1 - (pts.getD j.val (0, 0)).1 : ℚ) : ℝ) ^ 2 +
            (((pts.getD i.val (0, 0)).2 - (pts.getD j.val (0, 0)).2 : ℚ) : ℝ) ^ 2) <
          (min h w : ℝ) * (5/100)) ∨
       (∃ p ∈ pts, p.1 < 0 ∨ (w : ℚ) ≤ p.1 ∨ p.2 < 0 ∨ (h : ℚ) ≤ p.2) ∨
       contourAreaQ pts < ((w : ℚ) * (h : ℚ)) * (1/100)) := by
  have hmQ : (0 : ℚ) ≤ (min h w : ℚ) * (1/20) := by positivity
  have hdist : ∀ p q : ℚ × ℚ,
      (Real.sqrt (((p.1 - q.1 : ℚ) : ℝ) ^ 2 + ((p.2 - q.2 : ℚ) : ℝ) ^ 2) <
        (min h w : ℝ) * (5/100)) ↔ sqDist p q < ((min h w : ℚ) * (1/20)) ^ 2 := by
    intro p q
    have h1 : ((sqDist p q : ℚ) : ℝ) =
        ((p.1 - q.1 : ℚ) : ℝ) ^ 2 + ((p.2 - q.2 : ℚ) : ℝ) ^ 2 := by
      unfold sqDist
      push_cast
      ring
    have h2 : (((min h w : ℚ) * (1/20) : ℚ) : ℝ) = (min h w : ℝ) * (5/100) := by
      push_cast
      norm_num
    rw [← h1, ← h2]
    exact sqrtQ_lt_iff _ _ (by unfold sqDist; positivity) hmQ
  constructor
  · intro hfalse
    rw [validateContour, if_neg (by omega)] at hfalse
    by_cases hA : anyPairCloser pts (((min h w : ℚ) * (1/20)) ^ 2) = true
    · left
      simp only [anyPairCloser, Bool.or_eq_true, decide_eq_true_eq] at hA
      rcases hA with ((((hp | hp) | hp) | hp) | hp) | hp
      · exact ⟨0, 1, by decide, (hdist _ _).mpr hp⟩
      · exact ⟨0, 2, by decide, (hdist _ _).mpr hp⟩
      · exact ⟨0, 3, by decide, (hdist _ _).mpr hp⟩
      · exact ⟨1, 2, by decide, (hdist _ _).mpr hp⟩
      · exact ⟨1, 3, by decide, (hdist _ _).mpr hp⟩
      · exact ⟨2, 3, by decide, (hdist _ _).mpr hp⟩
    · rw [if_neg hA] at hfalse
      by_cases hB : pts.any
          (fun p => p.1 < 0 || (w : ℚ) ≤ p.1 || p.2 < 0 || (h : ℚ) ≤ p.2) = true
      · right
        left
        have hB' := hB
        simp only [List.any_eq_true, Bool.or_eq_true, decide_eq_true_eq] at hB'
        obtain ⟨p, hp, hcond⟩ := hB'
        exact ⟨p, hp, by tauto⟩
      · rw [if_neg hB] at hfalse
        by_cases hC : contourAreaQ pts < ((w : ℚ) * (h : ℚ)) * (1/100)
        · exact Or.inr (Or.inr hC)
        · rw [if_neg hC] at hfalse
          exact absurd hfalse (by simp)
  · intro hrhs
    rw [validateContour, if_neg (by omega)]
    rcases hrhs with ⟨i, j, hne, hlt⟩ | hB | hC
    · have hij := (hdist _ _).mp hlt
      have hA : anyPairCloser pts (((min h w : ℚ) * (1/20)) ^ 2) = true := by
        simp only [anyPairCloser, Bool.or_eq_true, decide_eq_true_eq]
        fin_cases i <;> fin_cases j <;>
          first
            | exact absurd rfl hne
            | tauto
            | (rw [sqDist_comm] at hij; tauto)
      rw [if_pos hA]
    · have hBb : pts.any
          (fun p => p.1 < 0 || (w : ℚ) ≤ p.1 || p.2 < 0 || (h : ℚ) ≤ p.2) = true := by
        simp only [List.any_eq_true, Bool.or_eq_true, decide_eq_true_eq]
        obtain ⟨p, hp, hcond⟩ := hB
        exact ⟨p, hp, by tauto⟩
      by_cases hA : anyPairCloser pts (((min h w : ℚ) * (1/20)) ^ 2) = true
      · rw [if_pos hA]
      · rw [if_neg hA, if_pos hBb]
    · by_cases hA : anyPairCloser pts (((min h w : ℚ) * (1/20)) ^ 2) = true
      · rw [if_pos hA]
      · rw [if_neg hA]
        by_cases hB : pts.any
            (fun p => p.1 < 0 || (w : ℚ) ≤ p.1 || p.2 < 0 || (h : ℚ) ≤ p.2) = true
        · rw [if_pos hB]
        · rw [if_neg hB, if_pos hC]

/-- C6 (witness): the theorem instantiated at a concrete valid contour,
which `_validate_contour` indeed accepts. -/
theorem C6_witness :
    c6pts.length = 4 ∧ validateContour c6pts 100 100 = true ∧
    (validateContour c6pts 100 100 = false ↔
      ((∃ i j : Fin 4, i ≠ j ∧
        Real.sqrt ((((c6pts.getD i.val (0, 0)).1 - (c6pts.getD j.val (0, 0)).1 : ℚ) : ℝ) ^ 2 +
            (((c6pts.getD i.val (0, 0)).2 - (c6pts.getD j.val (0, 0)).2 : ℚ) : ℝ) ^ 2) <
          (min 100 100 : ℝ) * (5/100)) ∨
       (∃ p ∈ c6pts, p.1 < 0 ∨ (100 : ℚ) ≤ p.1 ∨ p.2 < 0 ∨ (100 : ℚ) ≤ p.2) ∨
       contourAreaQ c6pts < ((100 : ℚ) * (100 : ℚ)) * (1/100))) :=
  ⟨by with_unfolding_all rfl, by with_unfolding_all rfl,
   C6_thm c6pts 100 100 (by with_unfolding_all rfl)⟩

/-- Unfolding equation for `selectMin` when the tail has no minimum. -/
theorem selectMin_cons_none {α β : Type} [LinearOrder β] (k : α → β) (a : α)
    (rest : List α) (h : selectMin k rest = none) :
    selectMin k (a :: rest) = some a := by
  rw [selectMin, h]

/-- Unfolding equation for `selectMin` when the tail has minimum `b`. -/
theorem selectMin_cons_some {α β : Type} [LinearOrder β] (k : α → β) (a b : α)
    (rest : List α) (h : selectMin k rest = some b) :
    selectMin k (a :: rest) = if k a ≤ k b then some a else some b := by
  rw [selectMin, h]

/-- Unfolding equation for `selectMax` when the tail has no maximum. -/
theorem selectMax_cons_none {α β : Type} [LinearOrder β] (k : α → β) (a : α)
    (rest : List α) (h : selectMax k rest = none) :
    selectMax k (a :: rest) = some a := by
  rw [selectMax, h]

/-- Unfolding equation for `selectMax` when the tail has maximum `b`. -/
theorem selectMax_cons_some {α β : Type} [LinearOrder β] (k : α → β) (a b : α)
    (rest : List α) (h : selectMax k rest = some b) :
    selectMax k (a :: rest) = if k b ≤ k a then some a else some b := by
  rw [selectMax, h]

/-- `selectMin` returns nothing exactly on the empty list. -/
theorem selectMin_eq_none {α β : Type} [LinearOrder β] (k : α → β) :
    ∀ l : List α, selectMin k l = none ↔ l = [] := by
  intro l
  cases l with
  | nil => simp [selectMin]
  | cons a rest =>
    rcases hrest : selectMin k rest with - | b
    · rw [selectMin_cons_none k a rest hrest]
      simp
    · rw [selectMin_cons_some k a b rest hrest]
      by_cases hle : k a ≤ k b
      · rw [if_pos hle]
        simp
      · rw [if_neg hle]
        simp

/-- The first key-minimal element belongs to the list. -/
theorem selectMin_mem {α β : Type} [LinearOrder β] (k : α → β) :
    ∀ (l : List α) (m : α), selectMin k l = some m → m ∈ l := by
  intro l
  induction l with
  | nil =>
    intro m h
    exact absurd h (by simp [selectMin])
  | cons a rest ih =>
    intro m h
    rcases hrest : selectMin k rest with - | b
    · rw [selectMin_cons_none k a rest hrest] at h
      obtain rfl := Option.some_injective _ h
      exact List.mem_cons_self a rest
    · rw [selectMin_cons_some k a b rest hrest] at h
      by_cases hle : k a ≤ k b
      · rw [if_pos hle] at h
        obtain rfl := Option.some_injective _ h
        exact List.mem_cons_self _ rest
      · rw [if_neg hle] at h
        obtain rfl := Option.some_injective _ h
        exact List.mem_cons_of_mem _ (ih _ hrest)

/-- The selected element has a minimal key. -/
theorem selectMin_le {α β : Type} [LinearOrder β] (k : α → β) :
    ∀ (l : List α) (m : α), selectMin k l = some m → ∀ x ∈ l, k m ≤ k x := by
  intro l
  induction l with
  | nil =>
    intro m h
    exact absurd h (by simp [selectMin])
  | cons a rest ih =>
    intro m h x hx
    rcases hrest : selectMin k rest with - | b
    · rw [selectMin_cons_none k a rest hrest] at h
      obtain rfl := Option.some_injective _ h
      have : rest = [] := (selectMin_eq_none k rest).mp hrest
      subst this
      rcases List.mem_cons.mp hx with rfl | hx'
      · exact le_refl _
      · exact absurd hx' (by simp)
    · rw [selectMin_cons_some k a b rest hrest] at h
      by_cases hle : k a ≤ k b
      · rw [if_pos hle] at h
        obtain rfl := Option.some_injective _ h
        rcases List.mem_cons.mp hx with rfl | hx'
        · exact le_refl _
        · exact le_trans hle (ih b hrest x hx')
      · rw [if_neg hle] at h
        obtain rfl := Option.some_injective _ h
        rcases List.mem_cons.mp hx with rfl | hx'
        · exact le_of_lt (lt_of_not_le hle)
        · exact ih b hrest x hx'

/-- A strictly unique key-minimum is what `selectMin` returns, regardless of
where it sits in the list. -/
theorem selectMin_eq_of_unique {α β : Type} [LinearOrder β] (k : α → β) :
    ∀ (l : List α) (m : α), m ∈ l → (∀ x ∈ l, x ≠ m → k m < k x) →
      selectMin k l = some m := by
  intro l
  induction l with
  | nil =>
    intro m hm
    exact absurd hm (by simp)
  | cons a rest ih =>
    intro m hm huniq
    rcases hrest : selectMin k rest with - | b
    · have : rest = [] := (selectMin_eq_none k rest).mp hrest
      subst this
      rw [selectMin_cons_none k a [] hrest]
      rcases List.mem_cons.mp hm with rfl | hm'
      · rfl
      · exact absurd hm' (by simp)
    · rw [selectMin_cons_some k a b rest hrest]
      have hbmem : b ∈ rest := selectMin_mem k rest b hrest
      rcases List.mem_cons.mp hm with rfl | hm'
      · have hle : k m ≤ k b := by
          by_cases hba : b = m
          · rw [hba]
          · exact le_of_lt (huniq b (List.mem_cons_of_mem _ hbmem) hba)
        rw [if_pos hle]
      · have hmin : selectMin k rest = some m :=
          ih m hm' (fun x hx hxm => huniq x (List.mem_cons_of_mem _ hx) hxm)
        rw [hrest] at hmin
        obtain rfl := Option.some_injective _ hmin
        by_cases ham : a = b
        · rw [if_pos (le_of_eq (congrArg k ham)), ham]
        · rw [if_neg (not_le.mpr (huniq a (List.mem_cons_self a rest) ham))]

/-- With pairwise distinct keys, `selectMin` depends only on the multiset
of elements. -/
theorem selectMin_perm {α β : Type} [LinearOrder β] (k : α → β)
    (l l' : List α) (hn : (l.map k).Nodup) (hp : l.Perm l') :
    selectMin k l = selectMin k l' := by
  rcases hl : selectMin k l with - | m
  · have : l = [] := (selectMin_eq_none k l).mp hl
    subst this
    rw [List.Perm.eq_nil hp.symm]
    rfl
  · have hmem : m ∈ l := selectMin_mem k l m hl
    have hle := selectMin_le k l m hl
    refine (selectMin_eq_of_unique k l' m (hp.subset hmem) ?_).symm
    intro x hx hxm
    have hxl : x ∈ l := hp.symm.subset hx
    rcases lt_or_eq_of_le (hle x hxl) with hlt | heq
    · exact hlt
    · exact absurd (List.inj_on_of_nodup_map hn hxl hmem heq.symm) hxm

/-- `selectMax` returns nothing exactly on the empty list. -/
theorem selectMax_eq_none {α β : Type} [LinearOrder β] (k : α → β) :
    ∀ l : List α, selectMax k l = none ↔ l = [] := by
  intro l
  cases l with
  | nil => simp [selectMax]
  | cons a rest =>
    rcases hrest : selectMax k rest with - | b
    · rw [selectMax_cons_none k a rest hrest]
      simp
    · rw [selectMax_cons_some k a b rest hrest]
      by_cases hle : k b ≤ k a
      · rw [if_pos hle]
        simp
      · rw [if_neg hle]
        simp

/-- The first key-maximal element belongs to the list. -/
theorem selectMax_mem {α β : Type} [LinearOrder β] (k : α → β) :
    ∀ (l : List α) (m : α), selectMax k l = some m → m ∈ l := by
  intro l
  induction l with
  | nil =>
    intro m h
    exact absurd h (by simp [selectMax])
  | cons a rest ih =>
    intro m h
    rcases hrest : selectMax k rest with - | b
    · rw [selectMax_cons_none k a rest hrest] at h
      obtain rfl := Option.some_injective _ h
      exact List.mem_cons_self a rest
    · rw [selectMax_cons_some k a b rest hrest] at h
      by_cases hle : k b ≤ k a
      · rw [if_pos hle] at h
        obtain rfl := Option.some_injective _ h
        exact List.mem_cons_self _ rest
      · rw [if_neg hle] at h
        obtain rfl := Option.some_injective _ h
        exact List.mem_cons_of_mem _ (ih _ hrest)

/-- The selected element has a maximal key. -/
theorem selectMax_ge {α β : Type} [LinearOrder β] (k : α → β) :
    ∀ (l : List α) (m : α), selectMax k l = some m → ∀ x ∈ l, k x ≤ k m := by
  intro l
  induction l with
  | nil =>
    intro m h
    exact absurd h (by simp [selectMax])
  | cons a rest ih =>
    intro m h x hx
    rcases hrest : selectMax k rest with - | b
    · rw [selectMax_cons_none k a rest hrest] at h
      obtain rfl := Option.some_injective _ h
      have : rest = [] := (selectMax_eq_none k rest).mp hrest
      subst this
      rcases List.mem_cons.mp hx with rfl | hx'
      · exact le_refl _
      · exact absurd hx' (by simp)
    · rw [selectMax_cons_some k a b rest hrest] at h
      by_cases hle : k b ≤ k a
      · rw [if_pos hle] at h
        obtain rfl := Option.some_injective _ h
        rcases List.mem_cons.mp hx with rfl | hx'
        · exact le_refl _
        · exact le_trans (ih b hrest x hx') hle
      · rw [if_neg hle] at h
        obtain rfl := Option.some_injective _ h
        rcases List.mem_cons.mp hx with rfl | hx'
        · exact le_of_lt (lt_of_not_le hle)
        · exact ih b hrest x hx'

/-- A strictly unique key-maximum is what `selectMax` returns. -/
theorem selectMax_eq_of_unique {α β : Type} [LinearOrder β] (k : α → β) :
    ∀ (l : List α) (m : α), m ∈ l → (∀ x ∈ l, x ≠ m → k x < k m) →
      selectMax k l = some m := by
  intro l
  induction l with
  | nil =>
    intro m hm
    exact absurd hm (by simp)
  | cons a rest ih =>
    intro m hm huniq
    rcases hrest : selectMax k rest with - | b
    · have : rest = [] := (selectMax_eq_none k rest).mp hrest
      subst this
      rw [selectMax_cons_none k a [] hrest]
      rcases List.mem_cons.mp hm with rfl | hm'
      · rfl
      · exact absurd hm' (by simp)
    · rw [selectMax_cons_some k a b rest hrest]
      have hbmem : b ∈ rest := selectMax_mem k rest b hrest
      rcases List.mem_cons.mp hm with rfl | hm'
      · have hle : k b ≤ k m := by
          by_cases hba : b = m
          · rw [hba]
          · exact le_of_lt (huniq b (List.mem_cons_of_mem _ hbmem) hba)
        rw [if_pos hle]
      · have hmax : selectMax k rest = some m :=
          ih m hm' (fun x hx hxm => huniq x (List.mem_cons_of_mem _ hx) hxm)
        rw [hrest] at hmax
        obtain rfl := Option.some_injective _ hmax
        by_cases ham : a = b
        · rw [if_pos (le_of_eq (congrArg k ham.symm)), ham]
        · rw [if_neg (not_le.mpr (huniq a (List.mem_cons_self a rest) ham))]

/-- With pairwise distinct keys, `selectMax` depends only on the multiset
of elements. -/
theorem selectMax_perm {α β : Type} [LinearOrder β] (k : α → β)
    (l l' : List α) (hn : (l.map k).Nodup) (hp : l.Perm l') :
    selectMax k l = selectMax k l' := by
  rcases hl : selectMax k l with - | m
  · have : l = [] := (selectMax_eq_none k l).mp hl
    subst this
    rw [List.Perm.eq_nil hp.symm]
    rfl
  · have hmem : m ∈ l := selectMax_mem k l m hl
    have hge := selectMax_ge k l m hl
    refine (selectMax_eq_of_unique k l' m (hp.subset hmem) ?_).symm
    intro x hx hxm
    have hxl : x ∈ l := hp.symm.subset hx
    rcases lt_or_eq_of_le (hge x hxl) with hlt | heq
    · exact hlt
    · exact absurd (List.inj_on_of_nodup_map hn hxl hmem heq) hxm

/-- Two sorted permutations of the same elements with pairwise distinct
keys are equal. -/
theorem sorted_key_eq {α β : Type} [LinearOrder β] (k : α → β) :
    ∀ (l₁ l₂ : List α), l₁.Perm l₂ →
      l₁.Sorted (fun a b => k a ≤ k b) → l₂.Sorted (fun a b => k a ≤ k b) →
      (l₁.map k).Nodup → l₁ = l₂ := by
  intro l₁
  induction l₁ with
  | nil =>
    intro l₂ hp _ _ _
    exact hp.nil_eq
  | cons a t ih =>
    intro l₂ hp hs1 hs2 hn
    cases l₂ with
    | nil => exact absurd (List.Perm.eq_nil hp) (by simp)
    | cons b t₂ =>
      have hamem : a ∈ b :: t₂ := hp.subset (List.mem_cons_self a t)
      have hbmem : b ∈ a :: t := hp.symm.subset (List.mem_cons_self b t₂)
      have hab : k a ≤ k b := by
        rcases List.mem_cons.mp hbmem with heq | hb'
        · rw [heq]
        · exact (List.sorted_cons.mp hs1).1 b hb'
      have hba : k b ≤ k a := by
        rcases List.mem_cons.mp hamem with heq | ha'
        · rw [heq]
        · exact (List.sorted_cons.mp hs2).1 a ha'
      have haeqb : a = b :=
        List.inj_on_of_nodup_map hn (List.mem_cons_self a t) hbmem (le_antisymm hab hba)
      subst haeqb
      have hn' : (t.map k).Nodup := by
        rw [List.map_cons] at hn
        exact hn.of_cons
      rw [ih t₂ hp.cons_inv (List.sorted_cons.mp hs1).2 (List.sorted_cons.mp hs2).2 hn']

/-- The centroid only depends on the multiset of points. -/
theorem centroid_perm (l l' : List (ℚ × ℚ)) (hp : l.Perm l') :
    centroid l = centroid l' := by
  unfold centroid
  rw [(hp.map Prod.fst).sum_eq, (hp.map Prod.snd).sum_eq]

/-- The polar sort is sorted by its key. -/
theorem polarSorted_sorted (pts : List (ℚ × ℚ)) :
    (polarSorted pts).Sorted
      (fun p q => polarKey (centroid pts) p ≤ polarKey (centroid pts) q) := by
  haveI : IsTotal (ℚ × ℚ)
      (fun p q => polarKey (centroid pts) p ≤ polarKey (centroid pts) q) :=
    ⟨fun p q => le_total _ _⟩
  haveI : IsTrans (ℚ × ℚ)
      (fun p q => polarKey (centroid pts) p ≤ polarKey (centroid pts) q) :=
    ⟨fun _ _ _ hab hbc => le_trans hab hbc⟩
  exact List.sorted_insertionSort _ pts

/-- The polar sort is a permutation of the input. -/
theorem polarSorted_perm (pts : List (ℚ × ℚ)) : (polarSorted pts).Perm pts :=
  List.perm_insertionSort _ pts

/-- `polarResort` permutes its input (the roll is a rotation of the sorted
list). -/
theorem polarResort_perm (pts : List (ℚ × ℚ)) : (polarResort pts).Perm pts :=
  (List.rotate_perm _ _).trans (polarSorted_perm pts)

/-- With pairwise distinct polar keys, `polarResort` depends only on the
multiset of points. -/
theorem polarResort_perm_eq (pts qts : List (ℚ × ℚ)) (hp : qts.Perm pts)
    (hn : (pts.map (polarKey (centroid pts))).Nodup) :
    polarResort qts = polarResort pts := by
  have hc : centroid qts = centroid pts := centroid_perm _ _ hp
  have hperm12 : (polarSorted qts).Perm (polarSorted pts) :=
    (polarSorted_perm qts).trans (hp.trans (polarSorted_perm pts).symm)
  have hnodup : ((polarSorted qts).map (polarKey (centroid pts))).Nodup := by
    refine (List.Perm.nodup_iff ?_).mpr hn
    exact ((polarSorted_perm qts).trans hp).map _
  have hsorted_eq : polarSorted qts = polarSorted pts := by
    have hq := polarSorted_sorted qts
    rw [hc] at hq
    exact sorted_key_eq (polarKey (centroid pts)) _ _ hperm12 hq
      (polarSorted_sorted pts) hnodup
  unfold polarResort
  rw [hsorted_eq]

/-- With pairwise distinct sum and difference keys, the sum/difference
rectangle depends only on the multiset of points. -/
theorem naiveRect_perm_eq (pts qts : List (ℚ × ℚ)) (hp : qts.Perm pts)
    (hs : (pts.map sumKey).Nodup) (hd : (pts.map diffKey).Nodup) :
    naiveRect qts = naiveRect pts := by
  unfold naiveRect
  rw [selectMin_perm sumKey pts qts hs hp.symm,
      selectMin_perm diffKey pts qts hd hp.symm,
      selectMax_perm sumKey pts qts hs hp.symm,
      selectMax_perm diffKey pts qts hd hp.symm]

/-- With pairwise distinct keys, the sum/difference ordering is a fixed
point: reapplying it to its own output changes nothing (even though the
output may repeat an input point). -/
theorem naiveRect_fix (pts : List (ℚ × ℚ)) (hne : pts ≠ [])
    (hs : (pts.map sumKey).Nodup) (hd : (pts.map diffKey).Nodup) :
    naiveRect (naiveRect pts) = naiveRect pts := by
  rcases htl : selectMin sumKey pts with - | tl
  · exact absurd ((selectMin_eq_none _ pts).mp htl) hne
  rcases htr : selectMin diffKey pts with - | tr
  · exact absurd ((selectMin_eq_none _ pts).mp htr) hne
  rcases hbr : selectMax sumKey pts with - | br
  · exact absurd ((selectMax_eq_none _ pts).mp hbr) hne
  rcases hbl : selectMax diffKey pts with - | bl
  · exact absurd ((selectMax_eq_none _ pts).mp hbl) hne
  have hrect : naiveRect pts = [tl, tr, br, bl] := by
    unfold naiveRect
    rw [htl, htr, hbr, hbl]
    rfl
  have htlm : tl ∈ pts := selectMin_mem _ pts tl htl
  have htrm : tr ∈ pts := selectMin_mem _ pts tr htr
  have hbrm : br ∈ pts := selectMax_mem _ pts br hbr
  have hblm : bl ∈ pts := selectMax_mem _ pts bl hbl
  have hmem : ∀ x ∈ [tl, tr, br, bl], x ∈ pts := by
    intro x hx
    simp only [List.mem_cons, List.not_mem_nil, or_false] at hx
    rcases hx with rfl | rfl | rfl | rfl
    · exact htlm
    · exact htrm
    · exact hbrm
    · exact hblm
  have h1 : selectMin sumKey [tl, tr, br, bl] = some tl := by
    apply selectMin_eq_of_unique
    · exact List.mem_cons_self _ _
    · intro x hx hxne
      rcases lt_or_eq_of_le (selectMin_le sumKey pts tl htl x (hmem x hx)) with hlt | heq
      · exact hlt
      · exact absurd (List.inj_on_of_nodup_map hs (hmem x hx) htlm heq.symm) hxne
  have h2 : selectMin diffKey [tl, tr, br, bl] = some tr := by
    apply selectMin_eq_of_unique
    · simp
    · intro x hx hxne
      rcases lt_or_eq_of_le (selectMin_le diffKey pts tr htr x (hmem x hx)) with hlt | heq
      · exact hlt
      · exact absurd (List.inj_on_of_nodup_map hd (hmem x hx) htrm heq.symm) hxne
  have h3 : selectMax sumKey [tl, tr, br, bl] = some br := by
    apply selectMax_eq_of_unique
    · simp
    · intro x hx hxne
      rcases lt_or_eq_of_le (selectMax_ge sumKey pts br hbr x (hmem x hx)) with hlt | heq
      · exact hlt
      · exact absurd (List.inj_on_of_nodup_map hs (hmem x hx) hbrm heq) hxne
  have h4 : selectMax diffKey [tl, tr, br, bl] = some bl := by
    apply selectMax_eq_of_unique
    · simp
    · intro x hx hxne
      rcases lt_or_eq_of_le (selectMax_ge diffKey pts bl hbl x (hmem x hx)) with hlt | heq
      · exact hlt
      · exact absurd (List.inj_on_of_nodup_map hd (hmem x hx) hblm heq) hxne
  rw [hrect]
  unfold naiveRect
  rw [h1, h2, h3, h4]
  rfl

/-- `order_points` takes the sum/difference branch when the mean angle is
within 30° of 90°. -/
theorem orderPoints_eq_naive (pts : List (ℚ × ℚ)) (h : ¬ usesPolar pts) :
    orderPoints pts = naiveRect pts := by
  unfold orderPoints
  rw [if_neg h]

/-- `order_points` takes the polar branch when the mean angle deviates
from 90° by more than 30°. -/
theorem orderPoints_eq_polar (pts : List (ℚ × ℚ)) (h : usesPolar pts) :
    orderPoints pts = polarResort pts := by
  unfold orderPoints
  rw [if_pos h]

/-- An exactly perpendicular corner yields an angle of exactly 90° (the
dot product is 0, so the `1e-6` guard and the clipping are exact). -/
theorem angleDeg_of_dot_zero (p1 p2 p3 : ℚ × ℚ) (h : dotQ p1 p2 p3 = 0) :
    angleDeg p1 p2 p3 = 90 := by
  unfold angleDeg cosAngle
  rw [h]
  push_cast
  rw [zero_div]
  norm_num
  rw [div_eq_iff Real.pi_ne_zero]
  ring

/-- When all four corners of the sum/difference rectangle are exactly
perpendicular, the mean angle is exactly 90° and `order_points` keeps the
sum/difference ordering. -/
theorem notPolar_of_right_angles (pts : List (ℚ × ℚ))
    (h0 : dotQ ((naiveRect pts).getD 0 (0, 0)) ((naiveRect pts).getD 1 (0, 0))
      ((naiveRect pts).getD 2 (0, 0)) = 0)
    (h1 : dotQ ((naiveRect pts).getD 1 (0, 0)) ((naiveRect pts).getD 2 (0, 0))
      ((naiveRect pts).getD 3 (0, 0)) = 0)
    (h2 : dotQ ((naiveRect pts).getD 2 (0, 0)) ((naiveRect pts).getD 3 (0, 0))
      ((naiveRect pts).getD 0 (0, 0)) = 0)
    (h3 : dotQ ((naiveRect pts).getD 3 (0, 0)) ((naiveRect pts).getD 0 (0, 0))
      ((naiveRect pts).getD 1 (0, 0)) = 0) :
    ¬ usesPolar pts ∧ orderPoints pts = naiveRect pts := by
  have havg : avgAngleDeg (naiveRect pts) = 90 := by
    unfold avgAngleDeg rectAngles
    rw [angleDeg_of_dot_zero _ _ _ h0, angleDeg_of_dot_zero _ _ _ h1,
        angleDeg_of_dot_zero _ _ _ h2, angleDeg_of_dot_zero _ _ _ h3]
    norm_num
  have hnp : ¬ usesPolar pts := by
    unfold usesPolar
    rw [havg]
    norm_num
  exact ⟨hnp, orderPoints_eq_naive pts hnp⟩

/-- C7: `order_points` is idempotent and input-order invariant, up to ties
in its ordering keys: assuming the four points have pairwise distinct
coordinate sums and pairwise distinct coordinate differences (and,
whenever the polar fallback fires at all, pairwise distinct polar angles
around the centroid — the only further keys the algorithm consults),
applying `order_points` twice equals applying it once, and every
permutation of the input yields the same ordering. -/
theorem C7_thm (pts qts : List (ℚ × ℚ)) (h4 : pts.length = 4)
    (hperm : qts.Perm pts)
    (hs : (pts.map sumKey).Nodup) (hd : (pts.map diffKey).Nodup)
    (hpolar : usesPolar pts → (pts.map (polarKey (centroid pts))).Nodup) :
    orderPoints (orderPoints pts) = orderPoints pts ∧
    orderPoints qts = orderPoints pts := by
  have hne : pts ≠ [] := by
    intro h
    rw [h] at h4
    simp at h4
  have hinv : ∀ rts : List (ℚ × ℚ), rts.Perm pts → orderPoints rts = orderPoints pts := by
    intro rts hp
    have hnr : naiveRect rts = naiveRect pts := naiveRect_perm_eq pts rts hp hs hd
    by_cases hup : usesPolar pts
    · have hup' : usesPolar rts := by
        unfold usesPolar at hup ⊢
        rw [hnr]
        exact hup
      rw [orderPoints_eq_polar rts hup', orderPoints_eq_polar pts hup]
      exact polarResort_perm_eq pts rts hp (hpolar hup)
    · have hup' : ¬ usesPolar rts := by
        unfold usesPolar at hup ⊢
        rw [hnr]
        exact hup
      rw [orderPoints_eq_naive rts hup', orderPoints_eq_naive pts hup, hnr]
  refine ⟨?_, hinv qts hperm⟩
  by_cases hup : usesPolar pts
  · rw [orderPoints_eq_polar pts hup]
    exact (hinv (polarResort pts) (polarResort_perm pts)).trans
      (orderPoints_eq_polar pts hup)
  · rw [orderPoints_eq_naive pts hup]
    have hfix : naiveRect (naiveRect pts) = naiveRect pts := naiveRect_fix pts hne hs hd
    have hnup : ¬ usesPolar (naiveRect pts) := by
      unfold usesPolar at hup ⊢
      rw [hfix]
      exact hup
    rw [orderPoints_eq_naive _ hnup, hfix]

/-- C7 (witness): the theorem applied to an axis-aligned rectangle with
tie-free keys and one concrete permutation of it. -/
theorem C7_witness :
    rectPts.length = 4 ∧
    ([((30 : ℚ), (0 : ℚ)), (0, 0), (30, 20), (0, 20)].Perm rectPts) ∧
    (rectPts.map sumKey).Nodup ∧ (rectPts.map diffKey).Nodup ∧
    ¬ usesPolar rectPts ∧
    (orderPoints (orderPoints rectPts) = orderPoints rectPts ∧
     orderPoints [((30 : ℚ), (0 : ℚ)), (0, 0), (30, 20), (0, 20)] = orderPoints rectPts) := by
  have hnp : ¬ usesPolar rectPts :=
    (notPolar_of_right_angles rectPts (by with_unfolding_all rfl)
      (by with_unfolding_all rfl) (by with_unfolding_all rfl)
      (by with_unfolding_all rfl)).1
  exact ⟨rfl, by with_unfolding_all decide, by with_unfolding_all decide,
    by with_unfolding_all decide, hnp,
    C7_thm rectPts [((30 : ℚ), (0 : ℚ)), (0, 0), (30, 20), (0, 20)] rfl
      (by with_unfolding_all decide) (by with_unfolding_all decide)
      (by with_unfolding_all decide) (fun h => absurd h hnp)⟩

/-- C8 (amended): the polar re-ordering — a permutation of the input
sorted by polar angle around the centroid — is applied exactly when the
**average** of the four corner angles of the naive ordering deviates from
90° by more than 30° (`|mean(angles) - 90| > 30`); when that deviation is
at most 30° the sum/difference ordering is returned as-is.  (The source
compares the deviation of the mean, not the claim's mean of the four
per-angle deviations.) -/
theorem C8_amended_thm (pts : List (ℚ × ℚ)) :
    (polarResort pts).Perm pts ∧
    (|avgAngleDeg (naiveRect pts) - 90| ≤ 30 → orderPoints pts = naiveRect pts) ∧
    (30 < |avgAngleDeg (naiveRect pts) - 90| → orderPoints pts = polarResort pts) := by
  refine ⟨polarResort_perm pts, ?_, ?_⟩
  · intro hle
    exact orderPoints_eq_naive pts (not_lt.mpr hle)
  · intro hlt
    exact orderPoints_eq_polar pts hlt

/-- C8 (witness): the amended theorem applied to an axis-aligned
rectangle, whose four exactly-right angles give mean deviation 0. -/
theorem C8_witness :
    |avgAngleDeg (naiveRect c8rect) - 90| ≤ 30 ∧
    orderPoints c8rect = naiveRect c8rect := by
  have hnp : ¬ usesPolar c8rect :=
    (notPolar_of_right_angles c8rect (by with_unfolding_all rfl)
      (by with_unfolding_all rfl) (by with_unfolding_all rfl)
      (by with_unfolding_all rfl)).1
  have hle : |avgAngleDeg (naiveRect c8rect) - 90| ≤ 30 := not_lt.mp hnp
  exact ⟨hle, (C8_amended_thm c8rect).2.1 hle⟩

/-- C8: the claim as stated is false.  On the parallelogram `c8pts` the
sum/difference ordering is the correct cyclic order; its four corner
angles are ≈ 59°, 121°, 59°, 121°, so the mean of the per-angle deviations
from 90° exceeds 30° — the claim then mandates the polar re-ordering — yet
the code compares `|mean(angles) - 90|`, which is exactly 0 here
(opposite corners are supplementary), and keeps the sum/difference
ordering. -/
theorem C8_counterexample :
    30 < specMeanAngleDeviation c8pts ∧ ¬ usesPolar c8pts ∧
    orderPoints c8pts = naiveRect c8pts ∧ naiveRect c8pts = c8pts := by
  have hnr : naiveRect c8pts = c8pts := by with_unfolding_all rfl
  have hpi := Real.pi_pos
  have h100 : Real.sqrt 100 = 10 := by
    rw [show (100 : ℝ) = 10 ^ 2 by norm_num, Real.sqrt_sq (by norm_num)]
  have hs3 : (3 : ℝ) < Real.sqrt 34 := (Real.lt_sqrt (by norm_num)).mpr (by norm_num)
  have hs6 : Real.sqrt 34 < 6 - 1/10000000 := by
    rw [Real.sqrt_lt' (by norm_num)]
    norm_num
  have hD : (0 : ℝ) < 10 * Real.sqrt 34 + 1/1000000 := by positivity
  have hc0 : (0 : ℝ) < 30 / (10 * Real.sqrt 34 + 1/1000000) := by positivity
  have hc1 : 30 / (10 * Real.sqrt 34 + 1/1000000) < 1 := by
    rw [div_lt_one hD]
    nlinarith [hs3]
  have hc12 : (1 : ℝ)/2 < 30 / (10 * Real.sqrt 34 + 1/1000000) := by
    rw [lt_div_iff₀ hD]
    nlinarith [hs6]
  have harc : Real.arccos (30 / (10 * Real.sqrt 34 + 1/1000000)) < Real.pi / 3 := by
    by_contra hge
    push_neg at hge
    rcases lt_or_eq_of_le hge with hgt | heqq
    · have hlt := Real.cos_lt_cos_of_nonneg_of_le_pi (by positivity)
        (Real.arccos_le_pi (30 / (10 * Real.sqrt 34 + 1/1000000))) hgt
      rw [Real.cos_arccos (by linarith) (le_of_lt hc1), Real.cos_pi_div_three] at hlt
      linarith
    · have hhalf : (1 : ℝ)/2 = 30 / (10 * Real.sqrt 34 + 1/1000000) := by
        rw [← Real.cos_pi_div_three, heqq,
          Real.cos_arccos (by linarith) (le_of_lt hc1)]
      linarith
  have hang0 : angleDeg ((0 : ℚ), (0 : ℚ)) (10, 0) (13, 5) =
      (Real.pi - Real.arccos (30 / (10 * Real.sqrt 34 + 1/1000000))) * 180 / Real.pi := by
    unfold angleDeg cosAngle
    rw [show dotQ ((0 : ℚ), (0 : ℚ)) (10, 0) (13, 5) = -30 from by norm_num [dotQ],
        show sqDist ((0 : ℚ), (0 : ℚ)) (10, 0) = 100 from by norm_num [sqDist],
        show sqDist ((13 : ℚ), (5 : ℚ)) (10, 0) = 34 from by norm_num [sqDist]]
    push_cast
    rw [h100]
    rw [show (-30 : ℝ) / (10 * Real.sqrt 34 + 1/1000000) =
      -(30 / (10 * Real.sqrt 34 + 1/1000000)) from by ring]
    rw [max_eq_left (by linarith), min_eq_left (by linarith), Real.arccos_neg]
  have hang1 : angleDeg ((10 : ℚ), (0 : ℚ)) (13, 5) (3, 5) =
      Real.arccos (30 / (10 * Real.sqrt 34 + 1/1000000)) * 180 / Real.pi := by
    unfold angleDeg cosAngle
    rw [show dotQ ((10 : ℚ), (0 : ℚ)) (13, 5) (3, 5) = 30 from by norm_num [dotQ],
        show sqDist ((10 : ℚ), (0 : ℚ)) (13, 5) = 34 from by norm_num [sqDist],
        show sqDist ((3 : ℚ), (5 : ℚ)) (13, 5) = 100 from by norm_num [sqDist]]
    push_cast
    rw [h100]
    rw [show Real.sqrt 34 * 10 = 10 * Real.sqrt 34 from mul_comm _ _]
    rw [max_eq_left (by linarith), min_eq_left (by linarith)]
  have hang2 : angleDeg ((13 : ℚ), (5 : ℚ)) (3, 5) (0, 0) =
      (Real.pi - Real.arccos (30 / (10 * Real.sqrt 34 + 1/1000000))) * 180 / Real.pi := by
    unfold angleDeg cosAngle
    rw [show dotQ ((13 : ℚ), (5 : ℚ)) (3, 5) (0, 0) = -30 from by norm_num [dotQ],
        show sqDist ((13 : ℚ), (5 : ℚ)) (3, 5) = 100 from by norm_num [sqDist],
        show sqDist ((0 : ℚ), (0 : ℚ)) (3, 5) = 34 from by norm_num [sqDist]]
    push_cast
    rw [h100]
    rw [show (-30 : ℝ) / (10 * Real.sqrt 34 + 1/1000000) =
      -(30 / (10 * Real.sqrt 34 + 1/1000000)) from by ring]
    rw [max_eq_left (by linarith), min_eq_left (by linarith), Real.arccos_neg]
  have hang3 : angleDeg ((3 : ℚ), (5 : ℚ)) (0, 0) (10, 0) =
      Real.arccos (30 / (10 * Real.sqrt 34 + 1/1000000)) * 180 / Real.pi := by
    unfold angleDeg cosAngle
    rw [show dotQ ((3 : ℚ), (5 : ℚ)) (0, 0) (10, 0) = 30 from by norm_num [dotQ],
        show sqDist ((3 : ℚ), (5 : ℚ)) (0, 0) = 34 from by norm_num [sqDist],
        show sqDist ((10 : ℚ), (0 : ℚ)) (0, 0) = 100 from by norm_num [sqDist]]
    push_cast
    rw [h100]
    rw [show Real.sqrt 34 * 10 = 10 * Real.sqrt 34 from mul_comm _ _]
    rw [max_eq_left (by linarith), min_eq_left (by linarith)]
  have hra : rectAngles c8pts =
      [angleDeg ((0 : ℚ), (0 : ℚ)) (10, 0) (13, 5),
       angleDeg ((10 : ℚ), (0 : ℚ)) (13, 5) (3, 5),
       angleDeg ((13 : ℚ), (5 : ℚ)) (3, 5) (0, 0),
       angleDeg ((3 : ℚ), (5 : ℚ)) (0, 0) (10, 0)] := rfl
  set d := Real.arccos (30 / (10 * Real.sqrt 34 + 1/1000000)) * 180 / Real.pi with hdd
  have hd0 : 0 ≤ d := by
    rw [hdd]
    exact div_nonneg (mul_nonneg (Real.arccos_nonneg _) (by norm_num)) (le_of_lt hpi)
  have hd60 : d < 60 := by
    rw [hdd, div_lt_iff₀ hpi]
    nlinarith [harc]
  have hneg180 : (Real.pi - Real.arccos (30 / (10 * Real.sqrt 34 + 1/1000000))) *
      180 / Real.pi = 180 - d := by
    rw [hdd]
    field_simp
    ring
  have hnp : ¬ usesPolar c8pts := by
    unfold usesPolar avgAngleDeg
    rw [hnr, hra, hang0, hang1, hang2, hang3, hneg180]
    simp only [List.sum_cons, List.sum_nil]
    rw [show (180 - d + (d + (180 - d + (d + 0)))) / 4 - 90 = (0 : ℝ) from by ring]
    norm_num
  refine ⟨?_, hnp, orderPoints_eq_naive c8pts hnp, hnr⟩
  unfold specMeanAngleDeviation
  rw [hnr, hra, hang0, hang1, hang2, hang3, hneg180]
  simp only [List.map_cons, List.map_nil, List.sum_cons, List.sum_nil]
  rw [abs_of_nonneg (by linarith : (0 : ℝ) ≤ 180 - d - 90),
      abs_of_nonpos (by linarith : d - 90 ≤ (0 : ℝ))]
  linarith

/-- Truncating the real square root of a nonnegative rational equals the
natural square root of its floor (`⌊√q⌋ = ⌊√⌊q⌋⌋`). -/
theorem isqrtQ_eq_floor_sqrt (q : ℚ) (hq : 0 ≤ q) :
    (isqrtQ q : ℤ) = ⌊Real.sqrt ((q : ℚ) : ℝ)⌋ := by
  unfold isqrtQ
  have hq0 : (0 : ℤ) ≤ ⌊q⌋ := Int.floor_nonneg.mpr hq
  have hfloor : ((⌊q⌋.toNat : ℤ)) = ⌊q⌋ := Int.toNat_of_nonneg hq0
  have hle1 : ((⌊q⌋.toNat : ℝ)) ≤ ((q : ℚ) : ℝ) := by
    have h1 : ((⌊q⌋.toNat : ℚ)) ≤ q := by
      rw [show ((⌊q⌋.toNat : ℚ)) = ((⌊q⌋.toNat : ℤ) : ℚ) from by push_cast; rfl, hfloor]
      exact Int.floor_le q
    exact_mod_cast h1
  have hlt1 : ((q : ℚ) : ℝ) < ((⌊q⌋.toNat : ℝ)) + 1 := by
    have h1 : q < ((⌊q⌋.toNat : ℚ)) + 1 := by
      rw [show ((⌊q⌋.toNat : ℚ)) = ((⌊q⌋.toNat : ℤ) : ℚ) from by push_cast; rfl, hfloor]
      exact Int.lt_floor_add_one q
    exact_mod_cast h1
  symm
  rw [Int.floor_eq_iff]
  have hcast2 : (((Nat.sqrt ⌊q⌋.toNat : ℤ)) : ℝ) = ((Nat.sqrt ⌊q⌋.toNat : ℕ) : ℝ) := by
    norm_cast
  constructor
  · rw [hcast2]
    exact le_trans Real.nat_sqrt_le_real_sqrt (Real.sqrt_le_sqrt hle1)
  · have hsucc : ((⌊q⌋.toNat : ℕ)) + 1 ≤ (Nat.sqrt ⌊q⌋.toNat + 1) ^ 2 :=
      Nat.succ_le_of_lt (Nat.lt_succ_sqrt' _)
    have hpos : (0 : ℝ) < ((Nat.sqrt ⌊q⌋.toNat : ℤ) : ℝ) + 1 := by
      rw [hcast2]
      positivity
    rw [Real.sqrt_lt' hpos, hcast2]
    have hsucc2 : ((⌊q⌋.toNat : ℝ)) + 1 ≤ (((Nat.sqrt ⌊q⌋.toNat : ℕ)) + 1 : ℝ) ^ 2 := by
      exact_mod_cast hsucc
    calc ((q : ℚ) : ℝ) < ((⌊q⌋.toNat : ℝ)) + 1 := hlt1
    _ ≤ (((Nat.sqrt ⌊q⌋.toNat : ℕ)) + 1 : ℝ) ^ 2 := hsucc2

/-- C2: `four_point_transform` orders the points, sets the output width to
`max(‖BR-BL‖, ‖TR-TL‖)` and height to `max(‖TR-BR‖, ‖TL-BL‖)` with each
norm truncated to int, returns the input unchanged when either dimension
is below 10, otherwise warps to the canonical destination rectangle
`[(0,0),(W-1,0),(W-1,H-1),(0,H-1)]` with bilinear interpolation and solid
white `(255,255,255)` fill, and never lets `target_size` influence the
result. -/
theorem C2_thm {α : Type} (image : α) (pts : List (ℚ × ℚ)) (ts ts' : Option (ℚ × ℚ))
    (tl tr br bl : ℚ × ℚ) (W H : ℤ)
    (hrect : orderPoints pts = [tl, tr, br, bl])
    (hW : W = max ⌊Real.sqrt (((br.1 - bl.1 : ℚ) : ℝ) ^ 2 + ((br.2 - bl.2 : ℚ) : ℝ) ^ 2)⌋
        ⌊Real.sqrt (((tr.1 - tl.1 : ℚ) : ℝ) ^ 2 + ((tr.2 - tl.2 : ℚ) : ℝ) ^ 2)⌋)
    (hH : H = max ⌊Real.sqrt (((tr.1 - br.1 : ℚ) : ℝ) ^ 2 + ((tr.2 - br.2 : ℚ) : ℝ) ^ 2)⌋
        ⌊Real.sqrt (((tl.1 - bl.1 : ℚ) : ℝ) ^ 2 + ((tl.2 - bl.2 : ℚ) : ℝ) ^ 2)⌋) :
    fourPointTransform image pts ts = fourPointTransform image pts ts' ∧
    (W < 10 ∨ H < 10 → fourPointTransform image pts ts = WarpResult.unchanged image) ∧
    (10 ≤ W → 10 ≤ H → fourPointTransform image pts ts =
      WarpResult.warped [tl, tr, br, bl]
        [(0, 0), ((W : ℚ) - 1, 0), ((W : ℚ) - 1, (H : ℚ) - 1), (0, (H : ℚ) - 1)]
        (W.toNat, H.toNat) InterpMode.bilinear (255, 255, 255) image) := by
  have hcast : ∀ p q : ℚ × ℚ, ((sqDist p q : ℚ) : ℝ) =
      ((p.1 - q.1 : ℚ) : ℝ) ^ 2 + ((p.2 - q.2 : ℚ) : ℝ) ^ 2 := by
    intro p q
    unfold sqDist
    push_cast
    ring
  have hwid : ∀ p q : ℚ × ℚ, (isqrtQ (sqDist p q) : ℤ) =
      ⌊Real.sqrt (((p.1 - q.1 : ℚ) : ℝ) ^ 2 + ((p.2 - q.2 : ℚ) : ℝ) ^ 2)⌋ := by
    intro p q
    rw [isqrtQ_eq_floor_sqrt _ (by unfold sqDist; positivity), hcast]
  have hWe : ((max (isqrtQ (sqDist br bl)) (isqrtQ (sqDist tr tl)) : ℕ) : ℤ) = W := by
    rw [hW, ← hwid br bl, ← hwid tr tl]
    push_cast
    rfl
  have hHe : ((max (isqrtQ (sqDist tr br)) (isqrtQ (sqDist tl bl)) : ℕ) : ℤ) = H := by
    rw [hH, ← hwid tr br, ← hwid tl bl]
    push_cast
    rfl
  have hunfold : ∀ t : Option (ℚ × ℚ), fourPointTransform image pts t =
      if max (isqrtQ (sqDist br bl)) (isqrtQ (sqDist tr tl)) < 10 ∨
         max (isqrtQ (sqDist tr br)) (isqrtQ (sqDist tl bl)) < 10 then
        WarpResult.unchanged image
      else
        WarpResult.warped [tl, tr, br, bl]
          [(0, 0),
           (((max (isqrtQ (sqDist br bl)) (isqrtQ (sqDist tr tl)) : ℕ) : ℚ) - 1, 0),
           (((max (isqrtQ (sqDist br bl)) (isqrtQ (sqDist tr tl)) : ℕ) : ℚ) - 1,
            ((max (isqrtQ (sqDist tr br)) (isqrtQ (sqDist tl bl)) : ℕ) : ℚ) - 1),
           (0, ((max (isqrtQ (sqDist tr br)) (isqrtQ (sqDist tl bl)) : ℕ) : ℚ) - 1)]
          (max (isqrtQ (sqDist br bl)) (isqrtQ (sqDist tr tl)),
           max (isqrtQ (sqDist tr br)) (isqrtQ (sqDist tl bl)))
          InterpMode.bilinear (255, 255, 255) image := by
    intro t
    unfold fourPointTransform
    rw [hrect]
    rfl
  refine ⟨by rw [hunfold ts, hunfold ts'], ?_, ?_⟩
  · intro hlt
    rw [hunfold ts]
    have hcond : max (isqrtQ (sqDist br bl)) (isqrtQ (sqDist tr tl)) < 10 ∨
        max (isqrtQ (sqDist tr br)) (isqrtQ (sqDist tl bl)) < 10 := by
      rcases hlt with hlt | hlt
      · left
        have hz : ((max (isqrtQ (sqDist br bl)) (isqrtQ (sqDist tr tl)) : ℕ) : ℤ) < 10 := by
          rw [hWe]
          exact hlt
        exact_mod_cast hz
      · right
        have hz : ((max (isqrtQ (sqDist tr br)) (isqrtQ (sqDist tl bl)) : ℕ) : ℤ) < 10 := by
          rw [hHe]
          exact hlt
        exact_mod_cast hz
    rw [if_pos hcond]
  · intro h10W h10H
    rw [hunfold ts]
    have hncond : ¬ (max (isqrtQ (sqDist br bl)) (isqrtQ (sqDist tr tl)) < 10 ∨
        max (isqrtQ (sqDist tr br)) (isqrtQ (sqDist tl bl)) < 10) := by
      push_neg
      constructor
      · have hz : (10 : ℤ) ≤ ((max (isqrtQ (sqDist br bl)) (isqrtQ (sqDist tr tl)) : ℕ) : ℤ) := by
          rw [hWe]
          exact h10W
        exact_mod_cast hz
      · have hz : (10 : ℤ) ≤ ((max (isqrtQ (sqDist tr br)) (isqrtQ (sqDist tl bl)) : ℕ) : ℤ) := by
          rw [hHe]
          exact h10H
        exact_mod_cast hz
    rw [if_neg hncond]
    have hWq : ((max (isqrtQ (sqDist br bl)) (isqrtQ (sqDist tr tl)) : ℕ) : ℚ) = (W : ℚ) := by
      rw [← hWe]
      norm_cast
    have hHq : ((max (isqrtQ (sqDist tr br)) (isqrtQ (sqDist tl bl)) : ℕ) : ℚ) = (H : ℚ) := by
      rw [← hHe]
      norm_cast
    have hWt : W.toNat = max (isqrtQ (sqDist br bl)) (isqrtQ (sqDist tr tl)) := by
      rw [← hWe]
      exact Int.toNat_natCast _
    have hHt : H.toNat = max (isqrtQ (sqDist tr br)) (isqrtQ (sqDist tl bl)) := by
      rw [← hHe]
      exact Int.toNat_natCast _
    rw [hWq, hHq, hWt, hHt]

/-- C2 (witness): the transform on a 30 × 20 axis-aligned rectangle warps
to the 30 × 20 destination rectangle with white bilinear fill. -/
theorem C2_witness :
    orderPoints rectPts = [((0 : ℚ), (0 : ℚ)), (30, 0), (30, 20), (0, 20)] ∧
    fourPointTransform (0 : ℕ) rectPts none =
      WarpResult.warped [((0 : ℚ), (0 : ℚ)), (30, 0), (30, 20), (0, 20)]
        [(0, 0), (29, 0), (29, 19), (0, 19)] (30, 20)
        InterpMode.bilinear (255, 255, 255) 0 := by
  have hord : orderPoints rectPts = [((0 : ℚ), (0 : ℚ)), (30, 0), (30, 20), (0, 20)] := by
    rw [(notPolar_of_right_angles rectPts (by with_unfolding_all rfl)
      (by with_unfolding_all rfl) (by with_unfolding_all rfl)
      (by with_unfolding_all rfl)).2]
    with_unfolding_all rfl
  have hsqrt900 : Real.sqrt (900 : ℝ) = 30 := by
    rw [show (900 : ℝ) = 30 ^ 2 by norm_num, Real.sqrt_sq (by norm_num)]
  have hsqrt400 : Real.sqrt (400 : ℝ) = 20 := by
    rw [show (400 : ℝ) = 20 ^ 2 by norm_num, Real.sqrt_sq (by norm_num)]
  have hmain := (C2_thm (0 : ℕ) rectPts none none ((0 : ℚ), (0 : ℚ)) (30, 0) (30, 20) (0, 20)
    30 20 hord (by norm_num [hsqrt900]) (by norm_num [hsqrt400])).2.2
    (by norm_num) (by norm_num)
  refine ⟨hord, ?_⟩
  rw [hmain]
  norm_num
  exact ⟨rfl, rfl⟩

/-- C3: on a detection miss (no cascade method yields a validated
candidate, so both `find_document_auto` and the cascade's own
`_find_any_large_rectangle` return `None`), `crop_with_calibration` never
rectifies a detected contour: it returns the rectifier applied to the
stored fractional `crop_points` rescaled to the image resolution when a
4-point crop is stored, otherwise the unmodified input image — and it
never returns `None` and never raises. -/
theorem C3_thm {α : Type} (image : α) (h w : ℕ)
    (anyLargeResult : Option (List (ℚ × ℚ))) (cropPoints : Option (List (ℚ × ℚ)))
    (ts : Option (ℚ × ℚ)) (hmiss : anyLargeResult = none) :
    (∀ cps, cropPoints = some cps → cps.length = 4 →
      cropWithCalibration image h w none anyLargeResult cropPoints ts =
        some (fourPointTransform image (scaleAndClipPoints cps w h) ts)) ∧
    ((cropPoints = none ∨ ∀ cps, cropPoints = some cps → cps.length ≠ 4) →
      cropWithCalibration image h w none anyLargeResult cropPoints ts =
        some (WarpResult.unchanged image)) ∧
    cropWithCalibration image h w none anyLargeResult cropPoints ts ≠ none := by
  subst hmiss
  have hsome : ∀ cps : List (ℚ × ℚ),
      cropWithCalibration image h w none none (some cps) ts =
        if cps.length = 4 then
          some (fourPointTransform image (scaleAndClipPoints cps w h) ts)
        else cropLastFallback image none ts := fun cps => rfl
  have hnonecrop : cropWithCalibration image h w none none none ts =
      some (WarpResult.unchanged image) := rfl
  refine ⟨?_, ?_, ?_⟩
  · intro cps hcp hlen
    subst hcp
    rw [hsome cps, if_pos hlen]
  · intro hcase
    cases hcp : cropPoints with
    | none => exact hnonecrop
    | some cps =>
      rcases hcase with hnone | hbad
      · rw [hcp] at hnone
        exact absurd hnone (by simp)
      · subst hcp
        rw [hsome cps, if_neg (hbad cps rfl)]
        rfl
  · cases hcp : cropPoints with
    | none =>
      rw [hnonecrop]
      simp
    | some cps =>
      subst hcp
      rw [hsome cps]
      by_cases hlen : cps.length = 4
      · rw [if_pos hlen]
        simp
      · rw [if_neg hlen]
        have hfb : cropLastFallback image (none : Option (List (ℚ × ℚ))) ts =
            some (WarpResult.unchanged image) := rfl
        rw [hfb]
        simp

/-- C3 (witness): the theorem applied with a stored 4-point fractional
crop on a 200 × 100 image. -/
theorem C3_witness :
    (some [((0 : ℚ), (0 : ℚ)), (1/2, 0), (1/2, 1/2), (0, 1/2)] :
      Option (List (ℚ × ℚ))) = some [((0 : ℚ), (0 : ℚ)), (1/2, 0), (1/2, 1/2), (0, 1/2)] ∧
    ([((0 : ℚ), (0 : ℚ)), (1/2, 0), (1/2, 1/2), (0, 1/2)] : List (ℚ × ℚ)).length = 4 ∧
    cropWithCalibration (0 : ℕ) 100 200 none none
      (some [((0 : ℚ), (0 : ℚ)), (1/2, 0), (1/2, 1/2), (0, 1/2)]) none =
      some (fourPointTransform (0 : ℕ)
        (scaleAndClipPoints [((0 : ℚ), (0 : ℚ)), (1/2, 0), (1/2, 1/2), (0, 1/2)] 200 100) none) :=
  ⟨rfl, rfl,
   (C3_thm (0 : ℕ) 100 200 none
     (some [((0 : ℚ), (0 : ℚ)), (1/2, 0), (1/2, 1/2), (0, 1/2)]) none rfl).1
     [((0 : ℚ), (0 : ℚ)), (1/2, 0), (1/2, 1/2), (0, 1/2)] rfl rfl⟩

end ContentsOnly
